import Mathlib

/-
Verification of the File Merge engine of this repository
(src/ExamplePlugins/folder_merge/file_merge.py).

The filesystem-manipulating core is shallowly embedded: the filesystem is a
finite tree of named directories and named files with explicit byte contents,
OS paths are pre-split segment lists, and every operation of the source
(os.path.exists, os.makedirs, shutil.move, os.remove, os.rmdir, os.walk,
os.listdir) is an executable function on that tree.  The GUI, logging,
progress reporting and threading glue are out of scope; the worker-side
queue protocol is modelled by oracles consumed in order (one response per
emitted request, exactly as the request/response queues pair them).

difflib.SequenceMatcher.ratio (Python standard library, not repository code)
is abstracted as a score function parameter `simF`; where a proof needs the
documented range [0, 1] of difflib scores this is a stated hypothesis.
Scores are rationals (the source uses floats; no claim here depends on
rounding).
-/

namespace FileMerge

/-- A path: a list of name segments relative to the model's root.  The source
works with absolute OS path strings; the model keeps them pre-split, which is
exactly the shape `os.walk`/`os.path.relpath` produce (normalized, no empty
segments). -/
abbrev FPath := List String

/-- A snapshot of a directory tree: named subdirectories and named files with
their byte contents (bytes as naturals). -/
inductive FSTree where
  | node : List (String × FSTree) → List (String × List Nat) → FSTree
deriving Inhabited

/-- Subdirectory entries of a directory node (name, subtree), in listing order:
the model's `os.listdir` order is the entry order of these lists. -/
def FSTree.dirsOf : FSTree → List (String × FSTree)
  | .node ds _ => ds

/-- File entries of a directory node (name, content), in listing order. -/
def FSTree.filesOf : FSTree → List (String × List Nat)
  | .node _ fl => fl

/-- First-match association lookup (directory entries; also the resolve cache,
modelling Python dict lookup — the model never overwrites a key, see C3). -/
def assocFind {κ α : Type} [DecidableEq κ] (k : κ) : List (κ × α) → Option α
  | [] => none
  | (n, v) :: rest => if n = k then some v else assocFind k rest

/-- Descend along a path to a directory node, `none` if any segment is missing. -/
def lookupDir : FSTree → FPath → Option FSTree
  | t, [] => some t
  | t, s :: rest =>
    match assocFind s t.dirsOf with
    | some c => lookupDir c rest
    | none => none

/-- The byte content of the file at a path, `none` if absent (or the path is
empty or names a directory). -/
def lookupFile : FSTree → FPath → Option (List Nat)
  | t, [f] => assocFind f t.filesOf
  | t, s :: r :: rest =>
    match assocFind s t.dirsOf with
    | some c => lookupFile c (r :: rest)
    | none => none
  | _, [] => none

/-- `os.path.isdir`. -/
def isdir (t : FSTree) (p : FPath) : Bool := (lookupDir t p).isSome

/-- `os.path.exists`: the path names a directory or a file. -/
def pathExists (t : FSTree) (p : FPath) : Bool := isdir t p || (lookupFile t p).isSome

/-- `os.path.basename` on a segment path. -/
def baseName (p : FPath) : String := p.getLastD ""

/-- Replace the content of file `f` in an entry list, or append a new entry. -/
def setFileEntry (fl : List (String × List Nat)) (f : String) (c : List Nat) :
    List (String × List Nat) :=
  if fl.any (fun e => e.1 == f) then fl.map (fun e => if e.1 = f then (f, c) else e)
  else fl ++ [(f, c)]

/-- Write a file at a path.  If the parent directory chain does not exist the
tree is unchanged (the source's `shutil.move` would raise there; the per-file
`try` of `_run_merge` catches it and continues, leaving the tree unchanged). -/
def insertFile : FSTree → FPath → List Nat → FSTree
  | .node ds fl, [f], c => .node ds (setFileEntry fl f c)
  | .node ds fl, s :: r :: rest, c =>
    .node (ds.map fun e => if e.1 = s then (e.1, insertFile e.2 (r :: rest) c) else e) fl
  | t, [], _ => t

/-- `os.remove`: delete the file entry at a path (no-op when absent — the
source's exception is caught by the callers' per-file handlers). -/
def removeFile : FSTree → FPath → FSTree
  | .node ds fl, [f] => .node ds (fl.filter fun e => decide (e.1 ≠ f))
  | .node ds fl, s :: r :: rest =>
    .node (ds.map fun e => if e.1 = s then (e.1, removeFile e.2 (r :: rest)) else e) fl
  | t, [] => t

/-- `os.makedirs(…, exist_ok=True)`: create the chain of directories along a path. -/
def makedirs : FSTree → FPath → FSTree
  | t, [] => t
  | .node ds fl, s :: rest =>
    match assocFind s ds with
    | some _ => .node (ds.map fun e => if e.1 = s then (e.1, makedirs e.2 rest) else e) fl
    | none => .node (ds ++ [(s, makedirs (.node [] []) rest)]) fl

/-- `shutil.move` of a single file to a fresh destination path (rename):
remove the source entry, write its content at the destination. -/
def moveFile (t : FSTree) (src dst : FPath) : FSTree :=
  match lookupFile t src with
  | some c => insertFile (removeFile t src) dst c
  | none => t

/-! ### Byte-identity check (`files_identical`, source lines 40–55) -/

/-- `CHUNK_SIZE` from the source: 64 KiB blocks for the bitwise comparison. -/
def CHUNK_SIZE : Nat := 64 * 1024

/-- The chunked comparison loop of `files_identical`, with its remaining
iteration budget explicit: compare `CHUNK_SIZE`-byte blocks in lock step;
unequal block ⇒ `false`; simultaneous end of input ⇒ `true`.  Every
iteration on a non-empty first input shortens it by `CHUNK_SIZE ≥ 1`, so
`cmpChunks` below supplies a budget that can never run out (the `0` arm is
unreachable there: `cmpChunksGo_fuel_irrelevant`). -/
def cmpChunksGo : Nat → List Nat → List Nat → Bool
  | fuel + 1, a, b =>
    if a.take CHUNK_SIZE ≠ b.take CHUNK_SIZE then false
    else if a.take CHUNK_SIZE = [] then true
    else cmpChunksGo fuel (a.drop CHUNK_SIZE) (b.drop CHUNK_SIZE)
  | 0, _, _ => false

/-- The chunk loop of `files_identical`. -/
def cmpChunks (a b : List Nat) : Bool := cmpChunksGo (a.length + 1) a b

/-- `files_identical` from the source, over I/O oracles: `sz p` models
`os.path.getsize p` and `rd p` the bytes delivered by the chunked reads, with
`none` meaning an `OSError` (at any point of the size query or the read).  The
source's `try/except OSError: return False` is the `none` branches. -/
def files_identical {π : Type} (sz : π → Option Nat) (rd : π → Option (List Nat))
    (a b : π) : Bool :=
  match sz a, sz b with
  | some na, some nb =>
    if na ≠ nb then false
    else
      match rd a, rd b with
      | some ca, some cb => cmpChunks ca cb
      | _, _ => false
  | _, _ => false

/-- Size oracle induced by the tree: a file's size is its content length;
directories and missing paths have no size (the read on them fails). -/
def fsSize (t : FSTree) (p : FPath) : Option Nat := (lookupFile t p).map List.length

/-- `files_identical` instantiated with the tree's own oracles. -/
def filesIdenticalT (t : FSTree) (a b : FPath) : Bool :=
  files_identical (fsSize t) (lookupFile t) a b

theorem take_chunk_eq_nil_iff (l : List Nat) : l.take CHUNK_SIZE = [] ↔ l = [] := by
  constructor
  · intro h
    rcases l with _ | ⟨x, xs⟩
    · rfl
    · rw [show CHUNK_SIZE = 65535 + 1 from rfl, List.take_succ_cons] at h
      cases h
  · intro h; subst h; simp

theorem cmpChunksGo_iff_aux : ∀ (f : Nat) (a b : List Nat), a.length < f →
    (cmpChunksGo f a b = true ↔ a = b) := by
  intro f
  induction f with
  | zero =>
    intro a b h
    omega
  | succ n ih =>
    intro a b h
    rw [cmpChunksGo]
    by_cases hne : a.take CHUNK_SIZE = b.take CHUNK_SIZE
    · rw [if_neg (by simpa using hne)]
      by_cases hnil : a.take CHUNK_SIZE = []
      · rw [if_pos hnil]
        have ha : a = [] := (take_chunk_eq_nil_iff a).mp hnil
        have hb : b = [] := by
          apply (take_chunk_eq_nil_iff b).mp
          rw [← hne, hnil]
        simp [ha, hb]
      · rw [if_neg hnil]
        have ha : a ≠ [] := fun hh => hnil (by rw [hh]; simp)
        have hlen : (a.drop CHUNK_SIZE).length < n := by
          simp only [List.length_drop]
          have h0 : 0 < a.length := List.length_pos.mpr ha
          have hc : 0 < CHUNK_SIZE := by decide
          omega
        rw [ih _ _ hlen]
        constructor
        · intro hdrop
          calc a = a.take CHUNK_SIZE ++ a.drop CHUNK_SIZE := (List.take_append_drop _ _).symm
            _ = b.take CHUNK_SIZE ++ b.drop CHUNK_SIZE := by rw [hne, hdrop]
            _ = b := List.take_append_drop _ _
        · intro hh; rw [hh]
    · rw [if_pos hne]
      constructor
      · intro hh; cases hh
      · intro hh; exact absurd (by rw [hh]) hne

/-- The loop budget is irrelevant as long as it exceeds the input length —
i.e. the `0` arm of `cmpChunksGo` is unreachable from `cmpChunks`. -/
theorem cmpChunksGo_fuel_irrelevant (f g : Nat) (a b : List Nat)
    (hf : a.length < f) (hg : a.length < g) :
    cmpChunksGo f a b = cmpChunksGo g a b := by
  by_cases hab : a = b
  · subst hab
    rw [(cmpChunksGo_iff_aux f a a hf).mpr rfl, (cmpChunksGo_iff_aux g a a hg).mpr rfl]
  · rcases hfv : cmpChunksGo f a b with _ | _
    · rcases hgv : cmpChunksGo g a b with _ | _
      · rfl
      · exact absurd ((cmpChunksGo_iff_aux g a b hg).mp hgv) hab
    · exact absurd ((cmpChunksGo_iff_aux f a b hf).mp hfv) hab

theorem cmpChunks_eq_true_iff (a b : List Nat) : cmpChunks a b = true ↔ a = b :=
  cmpChunksGo_iff_aux (a.length + 1) a b (by omega)

/-- C2.  Fail-safe byte-identity: any I/O failure while obtaining sizes or
reading content makes `files_identical` answer `false` (the embedding is a
total function — nothing escapes the `try`), and a `true` answer positively
confirms identity: both sizes and both reads succeeded and the delivered
byte sequences are equal.  Deletions in the merge (claim C1's cases) happen
only under a `true` answer, so an error branch can never cause one. -/
theorem C2_files_identical_fail_safe {π : Type} (sz : π → Option Nat)
    (rd : π → Option (List Nat)) (a b : π) :
    ((sz a = none ∨ sz b = none ∨ rd a = none ∨ rd b = none) →
      files_identical sz rd a b = false) ∧
    (files_identical sz rd a b = true →
      ∃ n ca cb, sz a = some n ∧ sz b = some n ∧
        rd a = some ca ∧ rd b = some cb ∧ ca = cb) := by
  constructor
  · intro herr
    unfold files_identical
    rcases hsa : sz a with _ | na
    · rfl
    rcases hsb : sz b with _ | nb
    · rfl
    dsimp only
    by_cases heq : na = nb
    · rw [if_neg (by simpa using heq)]
      rcases hra : rd a with _ | ca
      · rcases rd b with _ | cb <;> rfl
      rcases hrb : rd b with _ | cb
      · rfl
      exfalso
      rcases herr with h | h | h | h
      · rw [hsa] at h; cases h
      · rw [hsb] at h; cases h
      · rw [hra] at h; cases h
      · rw [hrb] at h; cases h
    · rw [if_pos (by simpa using heq)]
  · intro htrue
    unfold files_identical at htrue
    rcases hsa : sz a with _ | na
    · rw [hsa] at htrue; cases htrue
    rcases hsb : sz b with _ | nb
    · rw [hsa, hsb] at htrue; cases htrue
    rw [hsa, hsb] at htrue
    dsimp only at htrue
    by_cases heq : na = nb
    · rw [if_neg (by simpa using heq)] at htrue
      rcases hra : rd a with _ | ca
      · rw [hra] at htrue
        rcases rd b with _ | cb <;> cases htrue
      rcases hrb : rd b with _ | cb
      · rw [hra, hrb] at htrue; cases htrue
      rw [hra, hrb] at htrue
      dsimp only at htrue
      exact ⟨na, ca, cb, rfl, by rw [heq], rfl, rfl, (cmpChunks_eq_true_iff ca cb).mp htrue⟩
    · rw [if_pos (by simpa using heq)] at htrue
      cases htrue

/-- Witness for C2 at a concrete input: a failing size oracle yields `false`. -/
theorem C2_witness :
    files_identical (fun _ : Nat => (none : Option Nat)) (fun _ => none) 0 1 = false :=
  (C2_files_identical_fail_safe (fun _ : Nat => (none : Option Nat)) (fun _ => none) 0 1).1
    (Or.inl rfl)

/-! ### Association-list helper lemmas -/

theorem assocFind_some_mem {α : Type} (k : String) (l : List (String × α)) (v : α)
    (h : assocFind k l = some v) : k ∈ l.map (fun e => e.1) := by
  induction l with
  | nil => cases h
  | cons e rest ih =>
    rw [assocFind] at h
    by_cases he : e.1 = k
    · simp [he]
    · rw [if_neg he] at h
      simp [ih h]

theorem assocFind_map_update {α : Type} (l : List (String × α)) (s k : String) (f : α → α) :
    assocFind k (l.map (fun e => if e.1 = s then (e.1, f e.2) else e)) =
      if k = s then (assocFind k l).map f else assocFind k l := by
  induction l with
  | nil =>
    by_cases hks : k = s <;> simp [assocFind, hks]
  | cons e rest ih =>
    obtain ⟨n, v⟩ := e
    rw [List.map_cons]
    by_cases hns : n = s
    · subst hns
      rw [if_pos rfl]
      by_cases hnk : n = k
      · subst hnk
        rw [assocFind, if_pos rfl, if_pos rfl, assocFind, if_pos rfl, Option.map_some']
      · rw [assocFind, if_neg hnk, assocFind, if_neg hnk, ih]
    · rw [if_neg hns]
      by_cases hnk : n = k
      · subst hnk
        have hks : ¬ n = s := hns
        rw [assocFind, if_pos rfl, if_neg (fun h => hks h), assocFind, if_pos rfl]
      · rw [assocFind, if_neg hnk, assocFind, if_neg hnk, ih]

theorem assocFind_append {α : Type} (k : String) (l₁ l₂ : List (String × α)) :
    assocFind k (l₁ ++ l₂) =
      match assocFind k l₁ with
      | some v => some v
      | none => assocFind k l₂ := by
  induction l₁ with
  | nil => simp [assocFind]
  | cons e rest ih =>
    rw [List.cons_append, assocFind, assocFind]
    by_cases hek : e.1 = k
    · rw [if_pos hek, if_pos hek]
    · rw [if_neg hek, if_neg hek]
      exact ih

theorem assocFind_filter_ne {α : Type} (k f : String) (l : List (String × α)) :
    assocFind k (l.filter fun e => decide (e.1 ≠ f)) =
      if k = f then none else assocFind k l := by
  induction l with
  | nil => by_cases hkf : k = f <;> simp [assocFind, hkf]
  | cons e rest ih =>
    rw [List.filter_cons]
    by_cases hef : e.1 = f
    · rw [if_neg (by simp [hef])]
      rw [ih]
      by_cases hkf : k = f
      · rw [if_pos hkf, if_pos hkf]
      · rw [if_neg hkf, if_neg hkf, assocFind, if_neg (fun h => hkf (by rw [← h, hef]))]
    · rw [if_pos (by simp [hef])]
      rw [assocFind]
      by_cases hek : e.1 = k
      · have hkf : ¬ k = f := fun h => hef (by rw [hek, h])
        rw [if_pos hek, if_neg hkf, assocFind, if_pos hek]
      · rw [if_neg hek, ih]
        by_cases hkf : k = f
        · rw [if_pos hkf, if_pos hkf]
        · rw [if_neg hkf, if_neg hkf, assocFind, if_neg hek]

/-! ### Effect of the single-file operations on lookups -/

theorem removeFile_lookupFile : ∀ (p : FPath) (t : FSTree) (q : FPath),
    lookupFile (removeFile t p) q = if q = p then none else lookupFile t q := by
  intro p
  induction p with
  | nil =>
    intro t q
    rw [show removeFile t [] = t from by cases t; rfl]
    rcases q with _ | ⟨x, xs⟩
    · simp [lookupFile]
    · rw [if_neg (by simp)]
  | cons s p' ih =>
    intro t q
    rcases p' with _ | ⟨r, rest⟩
    · -- p = [s]: remove the file entry named s here
      rcases t with ⟨ds, fl⟩
      have hrm : removeFile (FSTree.node ds fl) [s] =
          FSTree.node ds (fl.filter fun e => decide (e.1 ≠ s)) := rfl
      rcases q with _ | ⟨x, ⟨⟩ | ⟨y, ys⟩⟩
      · rw [hrm]
        rw [if_neg (by simp)]
        rfl
      · rw [hrm]
        show assocFind x (fl.filter fun e => decide (e.1 ≠ s)) = _
        rw [assocFind_filter_ne]
        by_cases hxs : x = s
        · rw [if_pos hxs, if_pos (by rw [hxs])]
        · rw [if_neg hxs, if_neg (by simp [hxs])]
          rfl
      · rw [hrm]
        rw [if_neg (by simp)]
        rfl
    · -- p = s :: r :: rest: descend into branch s
      rcases t with ⟨ds, fl⟩
      have hrm : removeFile (FSTree.node ds fl) (s :: r :: rest) =
          FSTree.node (ds.map fun e =>
            if e.1 = s then (e.1, removeFile e.2 (r :: rest)) else e) fl := rfl
      rcases q with _ | ⟨x, ⟨⟩ | ⟨y, ys⟩⟩
      · rw [hrm]
        rw [if_neg (by simp)]
        rfl
      · rw [hrm]
        rw [if_neg (by simp)]
        rfl
      · rw [hrm]
        show (match assocFind x (ds.map fun e =>
            if e.1 = s then (e.1, removeFile e.2 (r :: rest)) else e) with
          | some c => lookupFile c (y :: ys)
          | none => none) = _
        rw [assocFind_map_update ds s x (fun u => removeFile u (r :: rest))]
        by_cases hxs : x = s
        · subst hxs
          rw [if_pos rfl]
          rcases hfind : assocFind x ds with _ | c
          · rw [Option.map_none']
            have : lookupFile (FSTree.node ds fl) (x :: y :: ys) = none := by
              show (match assocFind x ds with
                | some c => lookupFile c (y :: ys)
                | none => none) = none
              rw [hfind]
            rw [this]
            show (none : Option (List Nat)) = _
            split <;> rfl
          · rw [Option.map_some']
            have hrhs : lookupFile (FSTree.node ds fl) (x :: y :: ys) =
                lookupFile c (y :: ys) := by
              show (match assocFind x ds with
                | some c => lookupFile c (y :: ys)
                | none => none) = _
              rw [hfind]
            rw [hrhs]
            show lookupFile (removeFile c (r :: rest)) (y :: ys) = _
            rw [ih c (y :: ys)]
            by_cases hq : (y :: ys : FPath) = r :: rest
            · rw [if_pos hq, if_pos (by rw [hq])]
            · rw [if_neg hq, if_neg (by simpa using hq)]
        · rw [if_neg hxs, if_neg (by simp [hxs])]
          rfl

theorem lookupDir_append : ∀ (p : FPath) (t : FSTree) (q : FPath),
    lookupDir t (p ++ q) = (lookupDir t p).bind (fun d => lookupDir d q) := by
  intro p
  induction p with
  | nil => intro t q; rfl
  | cons s p' ih =>
    intro t q
    show (match assocFind s t.dirsOf with
      | some c => lookupDir c (p' ++ q)
      | none => none) = _
    rcases hfind : assocFind s t.dirsOf with _ | c
    · have : lookupDir t (s :: p') = none := by
        show (match assocFind s t.dirsOf with
          | some c => lookupDir c p'
          | none => none) = none
        rw [hfind]
      rw [this]
      rfl
    · have : lookupDir t (s :: p') = lookupDir c p' := by
        show (match assocFind s t.dirsOf with
          | some c => lookupDir c p'
          | none => none) = _
        rw [hfind]
      rw [this]
      exact ih c q

theorem lookupFile_append_name : ∀ (p : FPath) (t : FSTree) (n : String),
    lookupFile t (p ++ [n]) = (lookupDir t p).bind (fun d => assocFind n d.filesOf) := by
  intro p
  induction p with
  | nil => intro t n; cases t; rfl
  | cons s p' ih =>
    intro t n
    have hstep : lookupFile t (s :: (p' ++ [n])) =
        match assocFind s t.dirsOf with
        | some c => lookupFile c (p' ++ [n])
        | none => none := by
      rcases p' with _ | ⟨r, rest⟩ <;> (cases t; rfl)
    rw [show (s :: p') ++ [n] = s :: (p' ++ [n]) from rfl, hstep]
    rcases hfind : assocFind s t.dirsOf with _ | c
    · have : lookupDir t (s :: p') = none := by
        show (match assocFind s t.dirsOf with
          | some c => lookupDir c p'
          | none => none) = none
        rw [hfind]
      rw [this]
      rfl
    · have : lookupDir t (s :: p') = lookupDir c p' := by
        show (match assocFind s t.dirsOf with
          | some c => lookupDir c p'
          | none => none) = _
        rw [hfind]
      rw [this]
      exact ih c n

/-- `makedirs` never touches file content anywhere in the tree. -/
theorem makedirs_lookupFile : ∀ (p : FPath) (t : FSTree) (q : FPath),
    lookupFile (makedirs t p) q = lookupFile t q := by
  intro p
  induction p with
  | nil => intro t q; rw [show makedirs t [] = t from by cases t; rfl]
  | cons s p' ih =>
    intro t q
    rcases t with ⟨ds, fl⟩
    show lookupFile (match assocFind s ds with
      | some _ => FSTree.node (ds.map fun e => if e.1 = s then (e.1, makedirs e.2 p') else e) fl
      | none => FSTree.node (ds ++ [(s, makedirs (.node [] []) p')]) fl) q = _
    rcases hfind : assocFind s ds with _ | c
    · -- fresh branch appended
      rcases q with _ | ⟨x, ⟨⟩ | ⟨y, ys⟩⟩
      · rfl
      · rfl
      · show (match assocFind x (ds ++ [(s, makedirs (.node [] []) p')]) with
          | some c => lookupFile c (y :: ys)
          | none => none) = lookupFile (FSTree.node ds fl) (x :: y :: ys)
        rw [assocFind_append]
        rcases hx : assocFind x ds with _ | c
        · show (match assocFind x [(s, makedirs (.node [] []) p')] with
            | some c => lookupFile c (y :: ys)
            | none => none) = _
          by_cases hsx : s = x
          · rw [show assocFind x [(s, makedirs (FSTree.node [] []) p')] =
                some (makedirs (FSTree.node [] []) p') from by
              rw [assocFind, if_pos hsx]]
            show lookupFile (makedirs (FSTree.node [] []) p') (y :: ys) = _
            rw [ih]
            have h1 : lookupFile (FSTree.node [] []) (y :: ys) = none := by
              rcases ys with _ | ⟨z, zs⟩ <;> rfl
            have h2 : lookupFile (FSTree.node ds fl) (x :: y :: ys) = none := by
              show (match assocFind x ds with
                | some c => lookupFile c (y :: ys)
                | none => none) = none
              rw [hx]
            rw [h1, h2]
          · rw [show assocFind x [(s, makedirs (FSTree.node [] []) p')] =
                (none : Option FSTree) from by rw [assocFind, if_neg hsx]; rfl]
            show (none : Option (List Nat)) = _
            show (none : Option (List Nat)) =
              (match assocFind x ds with
                | some c => lookupFile c (y :: ys)
                | none => none)
            rw [hx]
        · show lookupFile c (y :: ys) = _
          show lookupFile c (y :: ys) =
            (match assocFind x ds with
              | some c => lookupFile c (y :: ys)
              | none => none)
          rw [hx]
    · -- existing branch updated in place
      rcases q with _ | ⟨x, ⟨⟩ | ⟨y, ys⟩⟩
      · rfl
      · rfl
      · show (match assocFind x (ds.map fun e =>
            if e.1 = s then (e.1, makedirs e.2 p') else e) with
          | some c => lookupFile c (y :: ys)
          | none => none) = lookupFile (FSTree.node ds fl) (x :: y :: ys)
        rw [assocFind_map_update ds s x (fun u => makedirs u p')]
        have hrhs : lookupFile (FSTree.node ds fl) (x :: y :: ys) =
            (match assocFind x ds with
              | some c => lookupFile c (y :: ys)
              | none => none) := rfl
        rw [hrhs]
        by_cases hxs : x = s
        · rw [if_pos hxs]
          rcases hx : assocFind x ds with _ | d
          · rfl
          · show lookupFile (makedirs d p') (y :: ys) = _
            rw [ih]
        · rw [if_neg hxs]

/-- All entry names of the directory at `p` (subdirectories then files,
in listing order): the model's `os.listdir`. -/
def listNames (t : FSTree) (p : FPath) : List String :=
  match lookupDir t p with
  | some d => d.dirsOf.map (fun e => e.1) ++ d.filesOf.map (fun e => e.1)
  | none => []

theorem pathExists_append_mem (t : FSTree) (p : FPath) (n : String)
    (h : pathExists t (p ++ [n]) = true) : n ∈ listNames t p := by
  unfold pathExists isdir at h
  rw [Bool.or_eq_true] at h
  unfold listNames
  rcases h with h | h
  · rw [Option.isSome_iff_exists] at h
    obtain ⟨d, hd⟩ := h
    rw [lookupDir_append] at hd
    rcases hp : lookupDir t p with _ | dp
    · rw [hp] at hd; cases hd
    · rw [hp] at hd
      have hd' : lookupDir dp [n] = some d := hd
      have : assocFind n dp.dirsOf = some d := by
        rw [show lookupDir dp [n] =
          (match assocFind n dp.dirsOf with
            | some c => lookupDir c []
            | none => none) from rfl] at hd'
        rcases hfind : assocFind n dp.dirsOf with _ | c
        · rw [hfind] at hd'; cases hd'
        · rw [hfind] at hd'
          cases hd'
          rfl
      exact List.mem_append_left _ (assocFind_some_mem _ _ _ this)
  · rw [Option.isSome_iff_exists] at h
    obtain ⟨c, hc⟩ := h
    rw [lookupFile_append_name] at hc
    rcases hp : lookupDir t p with _ | dp
    · rw [hp] at hc; cases hc
    · rw [hp] at hc
      have hc' : assocFind n dp.filesOf = some c := hc
      exact List.mem_append_right _ (assocFind_some_mem _ _ _ hc')

/-! ### Decimal numerals (`str(counter)` in the source's f-string) -/

/-- Decimal digit characters of a natural number, most significant first:
the value computed by core's `Nat.toDigitsCore` at base 10 (which is how the
embedding renders the source's `str(counter)`). -/
def decChars (n : Nat) : List Char :=
  if n < 10 then [Nat.digitChar n]
  else decChars (n / 10) ++ [Nat.digitChar (n % 10)]
termination_by n
decreasing_by
  exact Nat.div_lt_self (by omega) (by omega)

theorem decChars_lt10 (n : Nat) (h : n < 10) : decChars n = [Nat.digitChar n] := by
  conv_lhs => rw [decChars]
  rw [if_pos h]

theorem decChars_ge10 (n : Nat) (h : ¬ n < 10) :
    decChars n = decChars (n / 10) ++ [Nat.digitChar (n % 10)] := by
  conv_lhs => rw [decChars]
  rw [if_neg h]

theorem decChars_ne_nil (n : Nat) : decChars n ≠ [] := by
  by_cases h : n < 10
  · rw [decChars_lt10 n h]; simp
  · rw [decChars_ge10 n h]; simp

theorem toDigitsCore_eq_decChars : ∀ (fuel n : Nat) (acc : List Char), n < fuel →
    Nat.toDigitsCore 10 fuel n acc = decChars n ++ acc := by
  intro fuel
  induction fuel with
  | zero => intro n acc h; omega
  | succ f ih =>
    intro n acc h
    by_cases h10 : n / 10 = 0
    · have hn : n < 10 := by omega
      rw [Nat.toDigitsCore]
      simp only [h10, if_pos rfl]
      rw [decChars_lt10 n hn, Nat.mod_eq_of_lt hn]
      rfl
    · rw [Nat.toDigitsCore]
      simp only [h10, if_neg (by exact h10)]
      have hn10 : 10 ≤ n := by
        by_contra hc
        push_neg at hc
        exact h10 (Nat.div_eq_of_lt hc)
      have hrec : n / 10 < f := by
        have h1 : n / 10 < n := Nat.div_lt_self (by omega) (by omega)
        omega
      rw [ih (n / 10) _ hrec]
      rw [decChars_ge10 n (by omega)]
      rw [List.append_assoc]
      rfl

theorem repr_eq_decChars (n : Nat) : Nat.repr n = (decChars n).asString := by
  show (Nat.toDigits 10 n).asString = _
  rw [show Nat.toDigits 10 n = Nat.toDigitsCore 10 (n + 1) n [] from rfl]
  rw [toDigitsCore_eq_decChars (n + 1) n [] (by omega)]
  rw [List.append_nil]

theorem digitChar_inj_lt : ∀ a b : Nat, a < 10 → b < 10 →
    Nat.digitChar a = Nat.digitChar b → a = b := by
  have h : ∀ a b : Fin 10, Nat.digitChar a.val = Nat.digitChar b.val → a.val = b.val := by
    decide
  intro a b ha hb heq
  exact h ⟨a, ha⟩ ⟨b, hb⟩ heq

theorem decChars_inj : ∀ a b : Nat, decChars a = decChars b → a = b := by
  intro a
  induction a using Nat.strong_induction_on with
  | _ a ih =>
    intro b heq
    by_cases ha : a < 10
    · by_cases hb : b < 10
      · rw [decChars_lt10 a ha, decChars_lt10 b hb] at heq
        have hch : Nat.digitChar a = Nat.digitChar b := by injection heq
        exact digitChar_inj_lt a b ha hb hch
      · exfalso
        rw [decChars_lt10 a ha, decChars_ge10 b hb] at heq
        have hlen := congrArg List.length heq
        simp only [List.length_cons, List.length_append, List.length_nil] at hlen
        have := List.length_pos.mpr (decChars_ne_nil (b / 10))
        omega
    · by_cases hb : b < 10
      · exfalso
        rw [decChars_ge10 a ha, decChars_lt10 b hb] at heq
        have hlen := congrArg List.length heq
        simp only [List.length_cons, List.length_append, List.length_nil] at hlen
        have := List.length_pos.mpr (decChars_ne_nil (a / 10))
        omega
      · rw [decChars_ge10 a ha, decChars_ge10 b hb] at heq
        obtain ⟨h1, h2⟩ := List.append_inj' heq (by rfl)
        have hmod : a % 10 = b % 10 := by
          apply digitChar_inj_lt _ _ (Nat.mod_lt _ (by omega)) (Nat.mod_lt _ (by omega))
          injection h2
        have hdiv : a / 10 = b / 10 :=
          ih (a / 10) (Nat.div_lt_self (by omega) (by omega)) _ h1
        omega

theorem nat_repr_inj : ∀ a b : Nat, Nat.repr a = Nat.repr b → a = b := by
  intro a b h
  rw [repr_eq_decChars, repr_eq_decChars] at h
  exact decChars_inj a b (congrArg String.data h)

/-! ### Single-file placement (`_merge_single_file`, source lines 523–578) -/

/-- `os.path.splitext` restricted to a basename (no separators), with
CPython's rule: split at the last dot, except when every character before
that dot is itself a dot (then the name has no extension). -/
def splitext (s : String) : String × String :=
  let cs := s.data
  let j := (cs.reverse.takeWhile (fun c => decide (c ≠ '.'))).length
  if j = cs.length then (s, "")
  else if (cs.take (cs.length - j - 1)).all (fun c => c == '.') then (s, "")
  else ((cs.take (cs.length - j - 1)).asString, (cs.drop (cs.length - j - 1)).asString)

/-- The numbered collision candidate `f"{stem}_{counter}{ext}"`. -/
def candName (stem ext : String) (k : Nat) : String :=
  stem ++ "_" ++ Nat.repr k ++ ext

theorem candName_inj (stem ext : String) : ∀ k₁ k₂ : Nat,
    candName stem ext k₁ = candName stem ext k₂ → k₁ = k₂ := by
  intro k₁ k₂ h
  apply nat_repr_inj
  apply String.ext
  have hd := congrArg String.data h
  simp only [candName, String.data_append] at hd
  exact List.append_cancel_left (List.append_cancel_right hd)

/-- The per-file outcome reported by `_merge_single_file` (the source logs a
line and bumps a counter for each; the model keeps the classification).
`stuck` is the model's fuel-exhaustion marker for the numbered-probe loop; it
is proved unreachable (C1's first conjunct), matching the source where the
`while True` loop simply runs until it finds a free or identical candidate. -/
inductive MergeOutcome where
  | moved : FPath → MergeOutcome
  | droppedDup : FPath → MergeOutcome
  | renamed : FPath → MergeOutcome
  | stuck : MergeOutcome
deriving DecidableEq

/-- The numbered-collision loop of `_merge_single_file` (case C): probe
`stem_1.ext`, `stem_2.ext`, … from counter `k`; a free candidate receives the
source (move), an existing byte-identical candidate makes the source a
duplicate (delete), otherwise the counter is incremented.  The loop's
remaining budget is the explicit `fuel`; `probeNumbered_total` shows the
budget chosen by `merge_single_file` never runs out, i.e. the source's
`while True` always terminates. -/
def probeNumbered (t : FSTree) (src destDir : FPath) (stem ext : String) :
    Nat → Nat → Option (FSTree × MergeOutcome)
  | _, 0 => none
  | k, fuel + 1 =>
    if pathExists t (destDir ++ [candName stem ext k]) = false then
      some (moveFile t src (destDir ++ [candName stem ext k]),
        .renamed (destDir ++ [candName stem ext k]))
    else if filesIdenticalT t src (destDir ++ [candName stem ext k]) then
      some (removeFile t src, .droppedDup (destDir ++ [candName stem ext k]))
    else probeNumbered t src destDir stem ext (k + 1) fuel

/-- `_merge_single_file`: case A — destination name free: move (after
`os.makedirs(dest_dir, exist_ok=True)`); case B — destination exists and is
byte-identical: delete the source only; case C — name collision with
different content: run the numbered probe starting at counter 1. -/
def merge_single_file (t : FSTree) (src destDir : FPath) :
    Option (FSTree × MergeOutcome) :=
  if pathExists t (destDir ++ [baseName src]) = false then
    some (moveFile (makedirs t destDir) src (destDir ++ [baseName src]),
      .moved (destDir ++ [baseName src]))
  else if filesIdenticalT t src (destDir ++ [baseName src]) then
    some (removeFile t src, .droppedDup (destDir ++ [baseName src]))
  else
    probeNumbered t src destDir (splitext (baseName src)).1 (splitext (baseName src)).2
      1 ((listNames t destDir).length + 1)

theorem probeNumbered_none (t : FSTree) (src destDir : FPath) (stem ext : String) :
    ∀ (fuel k : Nat), probeNumbered t src destDir stem ext k fuel = none →
      ∀ j, k ≤ j → j < k + fuel →
        pathExists t (destDir ++ [candName stem ext j]) = true := by
  intro fuel
  induction fuel with
  | zero => intro k _ j h1 h2; omega
  | succ f ih =>
    intro k h j h1 h2
    rw [probeNumbered] at h
    by_cases hex : pathExists t (destDir ++ [candName stem ext k]) = false
    · rw [if_pos hex] at h; cases h
    · rw [if_neg hex] at h
      by_cases hid : filesIdenticalT t src (destDir ++ [candName stem ext k]) = true
      · rw [if_pos hid] at h; cases h
      · rw [if_neg hid] at h
        by_cases hjk : j = k
        · subst hjk
          simpa using hex
        · exact ih (k + 1) h j (by omega) (by omega)

theorem probeNumbered_total (t : FSTree) (src destDir : FPath) (stem ext : String) :
    probeNumbered t src destDir stem ext 1 ((listNames t destDir).length + 1) ≠ none := by
  intro hnone
  have hall := probeNumbered_none t src destDir stem ext _ 1 hnone
  set N := (listNames t destDir).length with hN
  have hmem : ∀ i, i < N + 1 → candName stem ext (i + 1) ∈ listNames t destDir := by
    intro i hi
    apply pathExists_append_mem
    exact hall (i + 1) (by omega) (by omega)
  have hinj : Function.Injective (fun i : Nat => candName stem ext (i + 1)) := by
    intro i₁ i₂ h
    have := candName_inj stem ext (i₁ + 1) (i₂ + 1) h
    omega
  have hnodup : ((List.range (N + 1)).map (fun i => candName stem ext (i + 1))).Nodup :=
    (List.nodup_range (N + 1)).map hinj
  have hsub : (List.range (N + 1)).map (fun i => candName stem ext (i + 1)) ⊆
      listNames t destDir := by
    intro x hx
    rw [List.mem_map] at hx
    obtain ⟨i, hi, rfl⟩ := hx
    exact hmem i (List.mem_range.mp hi)
  have hsp := List.subperm_of_subset hnodup hsub
  have hle := hsp.length_le
  rw [List.length_map, List.length_range] at hle
  omega

theorem probeNumbered_some (t : FSTree) (src destDir : FPath) (stem ext : String) :
    ∀ (fuel k : Nat) (r : FSTree × MergeOutcome),
      probeNumbered t src destDir stem ext k fuel = some r →
      ∃ j, k ≤ j ∧
        (∀ i, k ≤ i → i < j →
          pathExists t (destDir ++ [candName stem ext i]) = true ∧
          filesIdenticalT t src (destDir ++ [candName stem ext i]) = false) ∧
        ((pathExists t (destDir ++ [candName stem ext j]) = false ∧
            r = (moveFile t src (destDir ++ [candName stem ext j]),
              .renamed (destDir ++ [candName stem ext j]))) ∨
          (pathExists t (destDir ++ [candName stem ext j]) = true ∧
            filesIdenticalT t src (destDir ++ [candName stem ext j]) = true ∧
            r = (removeFile t src, .droppedDup (destDir ++ [candName stem ext j])))) := by
  intro fuel
  induction fuel with
  | zero => intro k r h; cases h
  | succ f ih =>
    intro k r h
    rw [probeNumbered] at h
    by_cases hex : pathExists t (destDir ++ [candName stem ext k]) = false
    · rw [if_pos hex] at h
      refine ⟨k, le_rfl, fun i h1 h2 => absurd (by omega) (by omega : ¬ False), Or.inl ⟨hex, ?_⟩⟩
      cases h
      rfl
    · rw [if_neg hex] at h
      by_cases hid : filesIdenticalT t src (destDir ++ [candName stem ext k]) = true
      · rw [if_pos hid] at h
        refine ⟨k, le_rfl, fun i h1 h2 => absurd (by omega) (by omega : ¬ False),
          Or.inr ⟨by simpa using hex, hid, ?_⟩⟩
        cases h
        rfl
      · rw [if_neg hid] at h
        obtain ⟨j, hj1, hj2, hj3⟩ := ih (k + 1) r h
        refine ⟨j, by omega, ?_, hj3⟩
        intro i h1 h2
        by_cases hik : i = k
        · subst hik
          exact ⟨by simpa using hex, by simpa using hid⟩
        · exact hj2 i (by omega) h2

/-- C1.  Placement decision order of `_merge_single_file`: if no entry with
the source's basename exists at the destination, the source is moved there
(after creating the destination directory); else if the existing entry is
byte-identical to the source, only the source file is deleted (every other
path of the tree, in particular the destination file, is untouched);
otherwise the suffixed candidates `stem_1.ext`, `stem_2.ext`, … are probed in
strictly increasing order — every candidate before the stopping one exists
and is not byte-identical — and the source is moved to the first free
candidate or deleted at the first byte-identical one.  The first conjunct is
termination: the probe never exhausts its budget. -/
theorem C1_merge_single_file_decision_order (t : FSTree) (src destDir : FPath) :
    (merge_single_file t src destDir).isSome = true ∧
    (pathExists t (destDir ++ [baseName src]) = false →
      merge_single_file t src destDir =
        some (moveFile (makedirs t destDir) src (destDir ++ [baseName src]),
          .moved (destDir ++ [baseName src]))) ∧
    (pathExists t (destDir ++ [baseName src]) = true →
      filesIdenticalT t src (destDir ++ [baseName src]) = true →
      merge_single_file t src destDir =
        some (removeFile t src, .droppedDup (destDir ++ [baseName src])) ∧
      (∀ q, q ≠ src → lookupFile (removeFile t src) q = lookupFile t q) ∧
      lookupFile (removeFile t src) src = none) ∧
    (pathExists t (destDir ++ [baseName src]) = true →
      filesIdenticalT t src (destDir ++ [baseName src]) = false →
      ∃ j, 1 ≤ j ∧
        (∀ i, 1 ≤ i → i < j →
          pathExists t (destDir ++
            [candName (splitext (baseName src)).1 (splitext (baseName src)).2 i]) = true ∧
          filesIdenticalT t src (destDir ++
            [candName (splitext (baseName src)).1 (splitext (baseName src)).2 i]) = false) ∧
        ((pathExists t (destDir ++
            [candName (splitext (baseName src)).1 (splitext (baseName src)).2 j]) = false ∧
          merge_single_file t src destDir =
            some (moveFile t src (destDir ++
                [candName (splitext (baseName src)).1 (splitext (baseName src)).2 j]),
              .renamed (destDir ++
                [candName (splitext (baseName src)).1 (splitext (baseName src)).2 j]))) ∨
         (pathExists t (destDir ++
            [candName (splitext (baseName src)).1 (splitext (baseName src)).2 j]) = true ∧
          filesIdenticalT t src (destDir ++
            [candName (splitext (baseName src)).1 (splitext (baseName src)).2 j]) = true ∧
          merge_single_file t src destDir =
            some (removeFile t src, .droppedDup (destDir ++
              [candName (splitext (baseName src)).1 (splitext (baseName src)).2 j]))))) := by
  refine ⟨?_, ?_, ?_, ?_⟩
  · -- termination
    unfold merge_single_file
    by_cases hex : pathExists t (destDir ++ [baseName src]) = false
    · rw [if_pos hex]; rfl
    · rw [if_neg hex]
      by_cases hid : filesIdenticalT t src (destDir ++ [baseName src]) = true
      · rw [if_pos hid]; rfl
      · rw [if_neg hid]
        rcases hp : probeNumbered t src destDir (splitext (baseName src)).1
            (splitext (baseName src)).2 1 ((listNames t destDir).length + 1) with _ | r
        · exact absurd hp (probeNumbered_total t src destDir _ _)
        · rfl
  · intro hex
    unfold merge_single_file
    rw [if_pos hex]
  · intro hex hid
    refine ⟨?_, ?_, ?_⟩
    · unfold merge_single_file
      rw [if_neg (by simp [hex]), if_pos hid]
    · intro q hq
      rw [removeFile_lookupFile, if_neg hq]
    · rw [removeFile_lookupFile, if_pos rfl]
  · intro hex hid
    have hbranch : merge_single_file t src destDir =
        probeNumbered t src destDir (splitext (baseName src)).1 (splitext (baseName src)).2
          1 ((listNames t destDir).length + 1) := by
      unfold merge_single_file
      rw [if_neg (by simp [hex]), if_neg (by simp [hid])]
    rcases hp : probeNumbered t src destDir (splitext (baseName src)).1
        (splitext (baseName src)).2 1 ((listNames t destDir).length + 1) with _ | r
    · exact absurd hp (probeNumbered_total t src destDir _ _)
    · obtain ⟨j, hj1, hj2, hj3⟩ := probeNumbered_some t src destDir _ _ _ 1 r hp
      refine ⟨j, hj1, hj2, ?_⟩
      rcases hj3 with ⟨h1, h2⟩ | ⟨h1, h2, h3⟩
      · exact Or.inl ⟨h1, by rw [hbranch, hp, h2]⟩
      · exact Or.inr ⟨h1, h2, by rw [hbranch, hp, h3]⟩

/-- Witness for C1: on a concrete tree with a free destination, the file is
moved (case A), discharging the case-A hypothesis concretely. -/
theorem C1_witness :
    merge_single_file (FSTree.node [("T", FSTree.node [] [])] [("a.txt", [1])])
        ["a.txt"] ["T"] =
      some (moveFile (makedirs (FSTree.node [("T", FSTree.node [] [])] [("a.txt", [1])])
          ["T"]) ["a.txt"] ["T", "a.txt"], .moved ["T", "a.txt"]) :=
  (C1_merge_single_file_decision_order
    (FSTree.node [("T", FSTree.node [] [])] [("a.txt", [1])]) ["a.txt"] ["T"]).2.1
    (by decide)

/-! ### Folder-name similarity and target-directory resolution
(`name_similarity`, `_find_best_matching_folder`, `_resolve_target_dir`) -/

/-- `name_similarity` (source lines 31–37): two empty names score 1, exactly
one empty name scores 0, otherwise difflib's `SequenceMatcher.ratio` — a
Python standard-library function, abstracted as the parameter `simF`
(difflib documents its scores to lie in [0, 1]). -/
def name_similarity (simF : String → String → ℚ) (a b : String) : ℚ :=
  if a = "" ∧ b = "" then 1
  else if a = "" ∨ b = "" then 0
  else simF a b

/-- The scan loop of `_find_best_matching_folder`: walk the listing of the
parent, skip non-directories, return the first entry scoring ≥ 1 immediately
(as both exact and best), otherwise track the best strictly-improving score
(initial best score 0, so a 0-scoring entry is never tracked). -/
def findBestScan (simF : String → String → ℚ) (t : FSTree) (parent : FPath)
    (wanted : String) : List String → Option FPath → ℚ →
    Option FPath × Option FPath × ℚ
  | [], best, bestScore => (none, best, bestScore)
  | e :: rest, best, bestScore =>
    if isdir t (parent ++ [e]) = false then
      findBestScan simF t parent wanted rest best bestScore
    else if name_similarity simF e wanted ≥ 1 then
      (some (parent ++ [e]), some (parent ++ [e]), 1)
    else if name_similarity simF e wanted > bestScore then
      findBestScan simF t parent wanted rest (some (parent ++ [e]))
        (name_similarity simF e wanted)
    else
      findBestScan simF t parent wanted rest best bestScore

/-- `_find_best_matching_folder` (source lines 421–449). -/
def find_best_matching_folder (simF : String → String → ℚ) (t : FSTree)
    (parent : FPath) (wanted : String) : Option FPath × Option FPath × ℚ :=
  if isdir t parent = false then (none, none, 0)
  else findBestScan simF t parent wanted (listNames t parent) none 0

/-- The user's answer to a folder-similarity dialog. -/
inductive DecisionResponse where
  | use_existing : DecisionResponse
  | skip : DecisionResponse
  | abort : DecisionResponse
deriving DecidableEq

/-- One emitted folder-similarity dialog request.  The source posts the tuple
`("similar_folder", seg, basename(similar_path))`; `key` additionally records
the cumulative relative path being resolved when the request was emitted
(pure instrumentation used to state the per-path uniqueness of C3). -/
structure DecisionRequest where
  key : FPath
  seg : String
  candidate : String
deriving DecidableEq

/-- Worker-side state threaded through a merge run: the filesystem, the
resolve cache (`_resolve_cache`), the log of emitted DecisionRequests
(instrumentation), and the positions of the response and threshold oracles.
`rIdx` counts consumed responses (the response queue pairs the `n`-th
response with the `n`-th request); `tIdx` counts reads of the shared
`SIMILARITY_THRESHOLD` variable, whose value at the `i`-th read is `thr i` —
the source reads it afresh at every similarity decision (see C8). -/
structure MState where
  fs : FSTree
  cache : List (FPath × FPath)
  reqs : List DecisionRequest
  rIdx : Nat
  tIdx : Nat

/-- Result of resolving one path segment (or a whole relative path):
either the chosen absolute directory plus the successor state, or the
state at the moment the user answered `abort`
(`_MergeAbortedError` in the source). -/
inductive SegResult where
  | ok : FPath → MState → SegResult
  | aborted : MState → SegResult

/-- The emitted-requests log of a segment result, whichever way it ended. -/
def segResultReqs : SegResult → List DecisionRequest
  | .ok _ st => st.reqs
  | .aborted st => st.reqs

/-- One level of `_resolve_target_dir` (source lines 477–515): cache hit →
reuse; exact match → adopt, cache; tracked candidate within the threshold
window → emit a DecisionRequest, block for the response (abort → raise;
use_existing → adopt, cache; skip → fall through); otherwise create the
directory with the wanted name and cache it.  The shared threshold variable
is read (advancing `tIdx`) only when a candidate was tracked — Python's
`and` short-circuit. -/
def resolveSeg (simF : String → String → ℚ) (resp : Nat → DecisionResponse)
    (thr : Nat → ℚ) (st : MState) (cur : FPath) (seg : String) (key : FPath) :
    SegResult :=
  match assocFind key st.cache with
  | some v => .ok v st
  | none =>
    match find_best_matching_folder simF st.fs cur seg with
    | (some e, _, _) => .ok e { st with cache := st.cache ++ [(key, e)] }
    | (none, some bp, score) =>
      let c := thr st.tIdx
      let st1 := MState.mk st.fs st.cache st.reqs st.rIdx (st.tIdx + 1)
      if score ≥ c ∧ score < 1 then
        let st2 := MState.mk st1.fs st1.cache
          (st1.reqs ++ [⟨key, seg, baseName bp⟩]) (st1.rIdx + 1) st1.tIdx
        match resp st1.rIdx with
        | .abort => .aborted st2
        | .use_existing =>
          .ok bp (MState.mk st2.fs (st2.cache ++ [(key, bp)]) st2.reqs st2.rIdx st2.tIdx)
        | .skip =>
          .ok (cur ++ [seg]) (MState.mk (makedirs st2.fs (cur ++ [seg]))
            (st2.cache ++ [(key, cur ++ [seg])]) st2.reqs st2.rIdx st2.tIdx)
      else
        .ok (cur ++ [seg]) (MState.mk (makedirs st1.fs (cur ++ [seg]))
          (st1.cache ++ [(key, cur ++ [seg])]) st1.reqs st1.rIdx st1.tIdx)
    | (none, none, _) =>
      .ok (cur ++ [seg]) (MState.mk (makedirs st.fs (cur ++ [seg]))
        (st.cache ++ [(key, cur ++ [seg])]) st.reqs st.rIdx st.tIdx)

/-- The segment loop of `_resolve_target_dir`: left to right, keeping the
running absolute directory and the cumulative relative path. -/
def resolveGo (simF : String → String → ℚ) (resp : Nat → DecisionResponse)
    (thr : Nat → ℚ) : List String → FPath → FPath → MState → SegResult
  | [], cur, _, st => .ok cur st
  | seg :: rest, cur, sofar, st =>
    match resolveSeg simF resp thr st cur seg (sofar ++ [seg]) with
    | .aborted st' => .aborted st'
    | .ok cur' st' => resolveGo simF resp thr rest cur' (sofar ++ [seg]) st'

/-- `_resolve_target_dir` (source lines 455–517): empty relative path is the
target root; a whole-path cache hit returns immediately; otherwise the
segment loop runs.  Paths are pre-split segment lists, so the source's
strip/split normalisation is already done. -/
def resolve_target_dir (simF : String → String → ℚ) (resp : Nat → DecisionResponse)
    (thr : Nat → ℚ) (targetRoot : FPath) (rel : FPath) (st : MState) : SegResult :=
  match rel with
  | [] => .ok targetRoot st
  | _ :: _ =>
    match assocFind rel st.cache with
    | some v => .ok v st
    | none => resolveGo simF resp thr rel targetRoot [] st

theorem findBestScan_exact_of_one (simF : String → String → ℚ) (t : FSTree)
    (parent : FPath) (wanted : String) :
    ∀ (l : List String) (b : Option FPath) (s : ℚ),
      (∃ n, n ∈ l ∧ isdir t (parent ++ [n]) = true ∧ 1 ≤ name_similarity simF n wanted) →
      (findBestScan simF t parent wanted l b s).1.isSome = true := by
  intro l
  induction l with
  | nil =>
    rintro b s ⟨n, hn, _⟩
    cases hn
  | cons e rest ih =>
    rintro b s ⟨n, hn, hd, hs⟩
    rw [findBestScan]
    by_cases hde : isdir t (parent ++ [e]) = false
    · rw [if_pos hde]
      rcases List.mem_cons.mp hn with rfl | hn'
      · rw [hd] at hde; cases hde
      · exact ih _ _ ⟨n, hn', hd, hs⟩
    · rw [if_neg hde]
      by_cases hge : name_similarity simF e wanted ≥ 1
      · rw [if_pos hge]; rfl
      · rw [if_neg hge]
        have hn' : n ∈ rest := by
          rcases List.mem_cons.mp hn with rfl | hn'
          · exact absurd hs hge
          · exact hn'
        by_cases hgt : name_similarity simF e wanted > s
        · rw [if_pos hgt]; exact ih _ _ ⟨n, hn', hd, hs⟩
        · rw [if_neg hgt]; exact ih _ _ ⟨n, hn', hd, hs⟩

theorem findBestScan_all_naught (simF : String → String → ℚ) (t : FSTree)
    (parent : FPath) (wanted : String) :
    ∀ (l : List String),
      (∀ n, n ∈ l → isdir t (parent ++ [n]) = true → name_similarity simF n wanted ≤ 0) →
      findBestScan simF t parent wanted l none 0 = (none, none, 0) := by
  intro l
  induction l with
  | nil => intro _; rfl
  | cons e rest ih =>
    intro h
    rw [findBestScan]
    by_cases hde : isdir t (parent ++ [e]) = false
    · rw [if_pos hde]
      exact ih fun n hn hd => h n (List.mem_cons_of_mem _ hn) hd
    · rw [if_neg hde]
      have hdt : isdir t (parent ++ [e]) = true := by
        revert hde
        cases isdir t (parent ++ [e]) <;> simp
      have he0 : name_similarity simF e wanted ≤ 0 := h e (List.mem_cons_self e rest) hdt
      rw [if_neg (by intro hge; exact absurd (le_trans hge he0) (by norm_num))]
      rw [if_neg (by intro hgt; exact absurd (lt_of_le_of_lt he0 hgt) (lt_irrefl _))]
      exact ih fun n hn hd => h n (List.mem_cons_of_mem _ hn) hd

/-- C4 (amended).  Per non-cached segment resolution: (1) an exact hit
returned by the scan is adopted immediately, the state gaining only the cache
entry — in particular no DecisionRequest; (2) an existing subdirectory whose
name-similarity to the wanted segment is 1.0 guarantees the scan reports an
exact hit; (3) when the scan tracked a best candidate (no exact hit), a
DecisionRequest is emitted exactly when its score is ≥ the threshold read at
that moment and < 1; (4) with no tracked candidate no request is emitted; and
(5) if every existing subdirectory scores ≤ 0 the scan tracks no candidate —
the code's `r > best_ratio` against an initial best of 0 never tracks a
0-scoring subdirectory, which is where the claim as stated fails (see the
counterexample). -/
theorem C4_exact_match_and_request_condition
    (simF : String → String → ℚ) (resp : Nat → DecisionResponse) (thr : Nat → ℚ)
    (st : MState) (cur : FPath) (seg : String) (key : FPath)
    (hkey : assocFind key st.cache = none) :
    (∀ e, (find_best_matching_folder simF st.fs cur seg).1 = some e →
      resolveSeg simF resp thr st cur seg key =
        .ok e (MState.mk st.fs (st.cache ++ [(key, e)]) st.reqs st.rIdx st.tIdx)) ∧
    ((∃ n, n ∈ listNames st.fs cur ∧ isdir st.fs (cur ++ [n]) = true ∧
        name_similarity simF n seg = 1) →
      (find_best_matching_folder simF st.fs cur seg).1.isSome = true) ∧
    (∀ bp score, find_best_matching_folder simF st.fs cur seg = (none, some bp, score) →
      ((thr st.tIdx ≤ score ∧ score < 1) →
        segResultReqs (resolveSeg simF resp thr st cur seg key) =
          st.reqs ++ [⟨key, seg, baseName bp⟩]) ∧
      (¬ (thr st.tIdx ≤ score ∧ score < 1) →
        segResultReqs (resolveSeg simF resp thr st cur seg key) = st.reqs)) ∧
    (∀ score, find_best_matching_folder simF st.fs cur seg = (none, none, score) →
      segResultReqs (resolveSeg simF resp thr st cur seg key) = st.reqs) ∧
    ((∀ n, n ∈ listNames st.fs cur → isdir st.fs (cur ++ [n]) = true →
        name_similarity simF n seg ≤ 0) →
      (find_best_matching_folder simF st.fs cur seg).2.1 = none) := by
  refine ⟨?_, ?_, ?_, ?_, ?_⟩
  · intro e he
    rcases hfb : find_best_matching_folder simF st.fs cur seg with ⟨ex, b, sc⟩
    rw [hfb] at he
    have he' : ex = some e := he
    subst he'
    unfold resolveSeg
    rw [hkey, hfb]
  · rintro ⟨n, hn, hd, hs⟩
    unfold find_best_matching_folder
    by_cases hdir : isdir st.fs cur = false
    · exfalso
      unfold listNames at hn
      rcases hl : lookupDir st.fs cur with _ | d
      · rw [hl] at hn; cases hn
      · unfold isdir at hdir
        rw [hl] at hdir
        cases hdir
    · rw [if_neg hdir]
      exact findBestScan_exact_of_one simF st.fs cur seg _ none 0 ⟨n, hn, hd, hs.ge⟩
  · intro bp score hfb
    constructor
    · intro hc
      unfold resolveSeg
      rw [hkey, hfb]
      dsimp only
      rw [if_pos ⟨hc.1, hc.2⟩]
      rcases resp st.rIdx with _ | _ | _ <;> rfl
    · intro hc
      unfold resolveSeg
      rw [hkey, hfb]
      dsimp only
      rw [if_neg (by intro h; exact hc ⟨h.1, h.2⟩)]
      rfl
  · intro score hfb
    unfold resolveSeg
    rw [hkey, hfb]
    rfl
  · intro hall
    unfold find_best_matching_folder
    by_cases hdir : isdir st.fs cur = false
    · rw [if_pos hdir]
    · rw [if_neg hdir]
      rw [findBestScan_all_naught simF st.fs cur seg _ hall]

/-- Witness for C4: a concrete exact-name match is reported by the scan,
with the cache-miss hypothesis discharged concretely. -/
theorem C4_witness :
    (find_best_matching_folder (fun a b => if a = b then 1 else 0)
      (FSTree.node [("Docs", FSTree.node [] [])] []) [] "Docs").1.isSome = true :=
  (C4_exact_match_and_request_condition (fun a b => if a = b then 1 else 0)
    (fun _ => .skip) (fun _ => 0)
    (MState.mk (FSTree.node [("Docs", FSTree.node [] [])] []) [] [] 0 0) [] "Docs" ["Docs"]
    (by decide)).2.1 ⟨"Docs", by decide, by decide, by decide⟩

/-- Concrete scene for the C4 counterexample: the target level contains one
subdirectory `xyz`, entirely dissimilar to the wanted segment `abc`
(difflib's ratio of two strings with no common characters is exactly 0,
which the abstracted score function mirrors), and the threshold control
stands at 0. -/
def tC4 : FSTree := .node [("T", .node [("xyz", .node [] [])] [])] []

/-- The segment resolution of the C4 counterexample. -/
def rC4 : SegResult :=
  resolveSeg (fun _ _ => 0) (fun _ => .skip) (fun _ => 0)
    (MState.mk tC4 [] [] 0 0) ["T"] "abc" ["abc"]

/-- C4 counterexample.  The claim states a DecisionRequest is emitted exactly
when a best-scoring candidate exists with score ≥ threshold and < 1.  Here a
(unique, hence best-scoring) existing subdirectory `xyz` has score 0, the
threshold is 0, so 0 ≥ 0 and 0 < 1 — yet no DecisionRequest is emitted: the
scan never tracks a candidate whose score is not strictly positive. -/
theorem C4_counterexample :
    segResultReqs rC4 = [] ∧
    listNames tC4 ["T"] = ["xyz"] ∧
    isdir tC4 ["T", "xyz"] = true ∧
    name_similarity (fun _ _ => 0) "xyz" "abc" = 0 ∧
    ((0 : ℚ) ≥ (0 : ℚ) ∧ (0 : ℚ) < 1) := by
  refine ⟨?_, ?_, ?_, ?_, ?_, ?_⟩ <;> decide

/-! ### Tree walks, enumeration and the empty-directory machinery -/

mutual
/-- `os.walk(…, topdown=True)` frames restricted to what the enumeration
uses: (absolute dirpath, file names), parent before children, subdirectories
in listing order. -/
def walkTD : FSTree → FPath → List (FPath × List String)
  | .node ds fl, p => (p, fl.map (fun e => e.1)) :: walkTDList ds p
def walkTDList : List (String × FSTree) → FPath → List (FPath × List String)
  | [], _ => []
  | (n, c) :: rest, p => walkTD c (p ++ [n]) ++ walkTDList rest p
end

mutual
/-- `os.walk(…, topdown=False)` dirpaths: children before their parent,
subdirectories in listing order. -/
def walkBU : FSTree → FPath → List FPath
  | .node ds _, p => walkBUList ds p ++ [p]
def walkBUList : List (String × FSTree) → FPath → List FPath
  | [], _ => []
  | (n, c) :: rest, p => walkBU c (p ++ [n]) ++ walkBUList rest p
end

mutual
/-- Number of directory nodes of a tree (the termination measure of the
repeated sweep rounds). -/
def dirCount : FSTree → Nat
  | .node ds _ => dirCountList ds + 1
def dirCountList : List (String × FSTree) → Nat
  | [] => 0
  | (_, c) :: rest => dirCount c + dirCountList rest
end

/-- Step 2 of `_run_merge`: enumerate `(source_root, relative_path,
absolute_path)` for every file under `src`.  The `continue` on a dirpath
whose basename is `_Quelle` skips only the files sitting DIRECTLY in such a
directory: `os.walk` still descends into its subdirectories, because
`continue` does not prune `dirnames` — which claim C6 is about. -/
def enumFiles (t : FSTree) (src : FPath) : List (FPath × FPath × FPath) :=
  match lookupDir t src with
  | none => []
  | some sub =>
    (walkTD sub src).flatMap fun fr =>
      if baseName fr.1 = "_Quelle" then []
      else fr.2.map fun f => (src, (fr.1 ++ [f]).drop src.length, fr.1 ++ [f])

/-- `rel_path.count(os.sep)` for a pre-split relative path. -/
def sepCount (rel : FPath) : Nat := rel.length - 1

/-- "Flachste Pfade zuerst": Python's stable `list.sort` keyed by the
separator count of the relative path, modelled by the stable `mergeSort`. -/
def sortFileList (l : List (FPath × FPath × FPath)) : List (FPath × FPath × FPath) :=
  l.mergeSort fun a b => decide (sepCount a.2.1 ≤ sepCount b.2.1)

/-- `_IGNORABLE_FILES`: OS metadata names ignored by the emptiness check. -/
def IGNORABLE_FILES : List String := [".DS_Store", "Thumbs.db", "desktop.ini"]

/-- `_is_dir_only_ignorable` (source lines 587–598): a failed listing counts
as not-only-ignorable; otherwise every entry's NAME (subdirectory or file)
must be an ignorable name — the source checks `entry in _IGNORABLE_FILES`
without an isfile test. -/
def is_dir_only_ignorable (t : FSTree) (p : FPath) : Bool :=
  match lookupDir t p with
  | none => false
  | some d =>
    (d.dirsOf.map (fun e => e.1) ++ d.filesOf.map (fun e => e.1)).all
      fun n => IGNORABLE_FILES.contains n

/-- Delete the ignorable file entries of the directory node at `p`
(the `os.remove` loop of `_purge_ignorable_and_rmdir`; a failed remove is
skipped, and `os.remove` on a subdirectory that happens to carry an
ignorable name fails — files only). -/
def purgeIgnorableAt : FSTree → FPath → FSTree
  | .node ds fl, [] =>
    .node ds (fl.filter fun e => !(IGNORABLE_FILES.contains e.1))
  | .node ds fl, s :: rest =>
    .node (ds.map fun e => if e.1 = s then (e.1, purgeIgnorableAt e.2 rest) else e) fl

/-- Remove the directory node at `p` from its parent (model of a successful
`os.rmdir`); the model's root (`[]`) is never removed. -/
def removeDirAt : FSTree → FPath → FSTree
  | t, [] => t
  | .node ds fl, [s] => .node (ds.filter fun e => decide (e.1 ≠ s)) fl
  | .node ds fl, s :: r :: rest =>
    .node (ds.map fun e => if e.1 = s then (e.1, removeDirAt e.2 (r :: rest)) else e) fl

/-- `_purge_ignorable_and_rmdir` (source lines 600–609): purge the ignorable
files, then `os.rmdir`.  The Boolean records whether the rmdir succeeded
(anything left — e.g. a subdirectory bearing an ignorable name — makes it
raise `OSError`, which every caller catches; the purge is not rolled back). -/
def purge_ignorable_and_rmdir (t : FSTree) (p : FPath) : FSTree × Bool :=
  let t1 := purgeIgnorableAt t p
  match lookupDir t1 p with
  | some d =>
    if d.dirsOf.isEmpty && d.filesOf.isEmpty && decide (p ≠ []) then
      (removeDirAt t1 p, true)
    else (t1, false)
  | none => (t1, false)

/-- The climb of `_remove_empty_dirs_upward`, its iteration budget explicit:
every iteration replaces `dirpath` by `dirpath.dropLast`, so the budget
`dirpath.length` supplied by the wrapper is exact — when it reaches `0` the
path is `[]`, on which the loop guard stops anyway, making the two arms
agree. -/
def removeUpwardGo : Nat → FSTree → FPath → FPath → FSTree
  | 0, t, _, _ => t
  | fuel + 1, t, dirpath, sourceRoot =>
    if dirpath = [] ∨ dirpath = sourceRoot then t
    else if isdir t dirpath = false then t
    else if baseName dirpath = "_Quelle" then t
    else if is_dir_only_ignorable t dirpath = false then t
    else
      match purge_ignorable_and_rmdir t dirpath with
      | (t', true) => removeUpwardGo fuel t' dirpath.dropLast sourceRoot
      | (t', false) => t'

/-- `_remove_empty_dirs_upward` (source lines 611–628): climb from `dirpath`
toward (excluding) `source_root`, deleting each directory that holds only
ignorable entries; stop at the root, a missing directory, a `_Quelle`
basename, real content, or a failed rmdir. -/
def remove_empty_dirs_upward (t : FSTree) (dirpath sourceRoot : FPath) : FSTree :=
  removeUpwardGo dirpath.length t dirpath sourceRoot

theorem dirCount_pos (t : FSTree) : 0 < dirCount t := by
  cases t with
  | node ds fl =>
    show 0 < dirCountList ds + 1
    omega

theorem dirCountList_map_update_le (ds : List (String × FSTree)) (s : String)
    (g : FSTree → FSTree) (hg : ∀ x, dirCount (g x) ≤ dirCount x) :
    dirCountList (ds.map fun e => if e.1 = s then (e.1, g e.2) else e) ≤
      dirCountList ds := by
  induction ds with
  | nil => exact Nat.le_refl _
  | cons e rest ih =>
    obtain ⟨n, v⟩ := e
    rw [List.map_cons]
    by_cases hns : n = s
    · rw [show (if (n, v).1 = s then ((n, v).1, g (n, v).2) else (n, v)) = (n, g v) from by
        rw [if_pos hns]]
      show dirCount (g v) + dirCountList _ ≤ dirCount v + dirCountList rest
      exact Nat.add_le_add (hg v) ih
    · rw [show (if (n, v).1 = s then ((n, v).1, g (n, v).2) else (n, v)) = (n, v) from by
        rw [if_neg hns]]
      show dirCount v + dirCountList _ ≤ dirCount v + dirCountList rest
      exact Nat.add_le_add_left ih _

theorem dirCountList_map_update_eq (ds : List (String × FSTree)) (s : String)
    (g : FSTree → FSTree) (hg : ∀ x, dirCount (g x) = dirCount x) :
    dirCountList (ds.map fun e => if e.1 = s then (e.1, g e.2) else e) =
      dirCountList ds := by
  induction ds with
  | nil => rfl
  | cons e rest ih =>
    obtain ⟨n, v⟩ := e
    rw [List.map_cons]
    by_cases hns : n = s
    · rw [show (if (n, v).1 = s then ((n, v).1, g (n, v).2) else (n, v)) = (n, g v) from by
        rw [if_pos hns]]
      show dirCount (g v) + dirCountList _ = dirCount v + dirCountList rest
      rw [hg v, ih]
    · rw [show (if (n, v).1 = s then ((n, v).1, g (n, v).2) else (n, v)) = (n, v) from by
        rw [if_neg hns]]
      show dirCount v + dirCountList _ = dirCount v + dirCountList rest
      rw [ih]

theorem dirCountList_map_update_lt (ds : List (String × FSTree)) (s : String)
    (g : FSTree → FSTree) (hg : ∀ x, dirCount (g x) ≤ dirCount x)
    (c : FSTree) (hfind : assocFind s ds = some c) (hlt : dirCount (g c) < dirCount c) :
    dirCountList (ds.map fun e => if e.1 = s then (e.1, g e.2) else e) <
      dirCountList ds := by
  induction ds with
  | nil => cases hfind
  | cons e rest ih =>
    obtain ⟨n, v⟩ := e
    rw [List.map_cons]
    by_cases hns : n = s
    · have hvc : v = c := by
        rw [assocFind, if_pos hns] at hfind
        cases hfind
        rfl
      subst hvc
      rw [show (if (n, v).1 = s then ((n, v).1, g (n, v).2) else (n, v)) = (n, g v) from by
        rw [if_pos hns]]
      show dirCount (g v) + dirCountList _ < dirCount v + dirCountList rest
      exact Nat.add_lt_add_of_lt_of_le hlt (dirCountList_map_update_le rest s g hg)
    · rw [show (if (n, v).1 = s then ((n, v).1, g (n, v).2) else (n, v)) = (n, v) from by
        rw [if_neg hns]]
      rw [assocFind, if_neg hns] at hfind
      show dirCount v + dirCountList _ < dirCount v + dirCountList rest
      exact Nat.add_lt_add_left (ih hfind) _

theorem dirCountList_filter_le (ds : List (String × FSTree)) (s : String) :
    dirCountList (ds.filter fun e => decide (e.1 ≠ s)) ≤ dirCountList ds := by
  induction ds with
  | nil => exact Nat.le_refl _
  | cons e rest ih =>
    obtain ⟨n, v⟩ := e
    rw [List.filter_cons]
    by_cases hns : n = s
    · rw [if_neg (by simp [hns])]
      show dirCountList _ ≤ dirCount v + dirCountList rest
      have := dirCount_pos v
      omega
    · rw [if_pos (by simp [hns])]
      show dirCount v + dirCountList _ ≤ dirCount v + dirCountList rest
      exact Nat.add_le_add_left ih _

theorem dirCountList_filter_lt (ds : List (String × FSTree)) (s : String)
    (c : FSTree) (hfind : assocFind s ds = some c) :
    dirCountList (ds.filter fun e => decide (e.1 ≠ s)) < dirCountList ds := by
  induction ds with
  | nil => cases hfind
  | cons e rest ih =>
    obtain ⟨n, v⟩ := e
    rw [List.filter_cons]
    by_cases hns : n = s
    · rw [if_neg (by simp [hns])]
      show dirCountList _ < dirCount v + dirCountList rest
      have h1 := dirCountList_filter_le rest s
      have h2 := dirCount_pos v
      omega
    · rw [if_pos (by simp [hns])]
      rw [assocFind, if_neg hns] at hfind
      show dirCount v + dirCountList _ < dirCount v + dirCountList rest
      exact Nat.add_lt_add_left (ih hfind) _

theorem removeDirAt_dirCount_le : ∀ (p : FPath) (t : FSTree),
    dirCount (removeDirAt t p) ≤ dirCount t := by
  intro p
  induction p with
  | nil => intro t; cases t; exact Nat.le_refl _
  | cons s p' ih =>
    intro t
    rcases t with ⟨ds, fl⟩
    rcases p' with _ | ⟨r, rest⟩
    · show dirCountList (ds.filter fun e => decide (e.1 ≠ s)) + 1 ≤ dirCountList ds + 1
      exact Nat.add_le_add_right (dirCountList_filter_le ds s) 1
    · show dirCountList (ds.map fun e =>
          if e.1 = s then (e.1, removeDirAt e.2 (r :: rest)) else e) + 1 ≤
        dirCountList ds + 1
      exact Nat.add_le_add_right
        (dirCountList_map_update_le ds s _ fun x => ih x) 1

theorem removeDirAt_dirCount_lt : ∀ (p : FPath) (t : FSTree), p ≠ [] →
    (lookupDir t p).isSome = true → dirCount (removeDirAt t p) < dirCount t := by
  intro p
  induction p with
  | nil => intro t h; exact absurd rfl h
  | cons s p' ih =>
    intro t _ hsome
    rcases t with ⟨ds, fl⟩
    have hfind : ∃ c, assocFind s ds = some c ∧ (lookupDir c p').isSome = true := by
      rw [show lookupDir (FSTree.node ds fl) (s :: p') =
        (match assocFind s (FSTree.node ds fl).dirsOf with
          | some c => lookupDir c p'
          | none => none) from rfl] at hsome
      rcases hf : assocFind s (FSTree.node ds fl).dirsOf with _ | c
      · rw [hf] at hsome; cases hsome
      · rw [hf] at hsome
        exact ⟨c, hf, hsome⟩
    obtain ⟨c, hf, hc⟩ := hfind
    rcases p' with _ | ⟨r, rest⟩
    · show dirCountList (ds.filter fun e => decide (e.1 ≠ s)) + 1 < dirCountList ds + 1
      exact Nat.add_lt_add_right (dirCountList_filter_lt ds s c hf) 1
    · show dirCountList (ds.map fun e =>
          if e.1 = s then (e.1, removeDirAt e.2 (r :: rest)) else e) + 1 <
        dirCountList ds + 1
      exact Nat.add_lt_add_right
        (dirCountList_map_update_lt ds s _ (fun x => removeDirAt_dirCount_le _ x)
          c hf (ih c (by simp) hc)) 1

theorem purgeIgnorableAt_dirCount : ∀ (p : FPath) (t : FSTree),
    dirCount (purgeIgnorableAt t p) = dirCount t := by
  intro p
  induction p with
  | nil =>
    intro t
    rcases t with ⟨ds, fl⟩
    rfl
  | cons s p' ih =>
    intro t
    rcases t with ⟨ds, fl⟩
    show dirCountList (ds.map fun e =>
        if e.1 = s then (e.1, purgeIgnorableAt e.2 p') else e) + 1 = dirCountList ds + 1
    rw [dirCountList_map_update_eq ds s _ fun x => ih x]

theorem purge_rmdir_dirCount (t : FSTree) (p : FPath) :
    ((purge_ignorable_and_rmdir t p).2 = true →
      dirCount (purge_ignorable_and_rmdir t p).1 < dirCount t) ∧
    ((purge_ignorable_and_rmdir t p).2 = false →
      dirCount (purge_ignorable_and_rmdir t p).1 = dirCount t) := by
  have hunf : purge_ignorable_and_rmdir t p =
      match lookupDir (purgeIgnorableAt t p) p with
      | some d =>
        if d.dirsOf.isEmpty && d.filesOf.isEmpty && decide (p ≠ []) then
          (removeDirAt (purgeIgnorableAt t p) p, true)
        else (purgeIgnorableAt t p, false)
      | none => (purgeIgnorableAt t p, false) := rfl
  rcases hl : lookupDir (purgeIgnorableAt t p) p with _ | d
  · rw [hunf, hl]
    exact ⟨(fun h => nomatch h), fun _ => purgeIgnorableAt_dirCount p t⟩
  · rw [hunf, hl]
    dsimp only
    by_cases hcond : (d.dirsOf.isEmpty && d.filesOf.isEmpty && decide (p ≠ [])) = true
    · rw [if_pos hcond]
      refine ⟨fun _ => ?_, (fun h => nomatch h)⟩
      have hpne : p ≠ [] := by
        simp only [Bool.and_eq_true, decide_eq_true_eq] at hcond
        exact hcond.2
      calc dirCount (removeDirAt (purgeIgnorableAt t p) p)
          < dirCount (purgeIgnorableAt t p) :=
            removeDirAt_dirCount_lt p _ hpne (by rw [hl]; rfl)
        _ = dirCount t := purgeIgnorableAt_dirCount p t
    · rw [if_neg hcond]
      exact ⟨(fun h => nomatch h), fun _ => purgeIgnorableAt_dirCount p t⟩

/-! ### Step 6 of `_run_merge`: the final empty-directory sweep -/

/-- One directory visit of a sweep round (source lines 745–753): skip
`_Quelle` basenames; purge-and-rmdir a directory that currently holds only
ignorable entries, counting it only when the rmdir succeeded (an `OSError`
is caught and counts nothing). -/
def sweepStep (acc : FSTree × Nat) (p : FPath) : FSTree × Nat :=
  if baseName p = "_Quelle" then acc
  else if is_dir_only_ignorable acc.1 p then
    ((purge_ignorable_and_rmdir acc.1 p).1,
      acc.2 + if (purge_ignorable_and_rmdir acc.1 p).2 then 1 else 0)
  else acc

/-- One round of step 6's `while True` over one source root: bottom-up over
the directories of the round-start tree (the walk includes the source root
itself), visiting each with `sweepStep`. -/
def sweepRound (t : FSTree) (src : FPath) : FSTree × Nat :=
  match lookupDir t src with
  | none => (t, 0)
  | some sub => (walkBU sub src).foldl sweepStep (t, 0)

theorem sweepStep_dirCount (acc : FSTree × Nat) (p : FPath) :
    dirCount (sweepStep acc p).1 ≤ dirCount acc.1 ∧
    acc.2 ≤ (sweepStep acc p).2 ∧
    (acc.2 < (sweepStep acc p).2 → dirCount (sweepStep acc p).1 < dirCount acc.1) := by
  unfold sweepStep
  by_cases h1 : baseName p = "_Quelle"
  · rw [if_pos h1]
    exact ⟨le_rfl, le_rfl, fun h => absurd h (lt_irrefl _)⟩
  · rw [if_neg h1]
    by_cases h2 : is_dir_only_ignorable acc.1 p = true
    · rw [if_pos h2]
      by_cases hb : (purge_ignorable_and_rmdir acc.1 p).2 = true
      · have hlt := (purge_rmdir_dirCount acc.1 p).1 hb
        rw [if_pos hb]
        exact ⟨le_of_lt hlt, by omega, fun _ => hlt⟩
      · have heq := (purge_rmdir_dirCount acc.1 p).2 (by
          revert hb
          cases (purge_ignorable_and_rmdir acc.1 p).2 <;> simp)
        rw [if_neg hb]
        exact ⟨le_of_eq heq, by omega, fun h => by omega⟩
    · rw [if_neg h2]
      exact ⟨le_rfl, le_rfl, fun h => absurd h (lt_irrefl _)⟩

theorem sweepFold_dirCount : ∀ (l : List FPath) (acc : FSTree × Nat),
    dirCount (l.foldl sweepStep acc).1 ≤ dirCount acc.1 ∧
    acc.2 ≤ (l.foldl sweepStep acc).2 ∧
    (acc.2 < (l.foldl sweepStep acc).2 →
      dirCount (l.foldl sweepStep acc).1 < dirCount acc.1) := by
  intro l
  induction l with
  | nil => exact fun acc => ⟨le_rfl, le_rfl, fun h => absurd h (lt_irrefl _)⟩
  | cons p rest ih =>
    intro acc
    rw [List.foldl_cons]
    obtain ⟨s1, s2, s3⟩ := sweepStep_dirCount acc p
    obtain ⟨f1, f2, f3⟩ := ih (sweepStep acc p)
    refine ⟨le_trans f1 s1, le_trans s2 f2, fun h => ?_⟩
    by_cases hmid : acc.2 < (sweepStep acc p).2
    · exact lt_of_le_of_lt f1 (s3 hmid)
    · have : (sweepStep acc p).2 = acc.2 := by omega
      exact lt_of_lt_of_le (f3 (by omega)) s1

theorem sweepRound_dirCount_lt (t : FSTree) (src : FPath)
    (h : (sweepRound t src).2 ≠ 0) :
    dirCount (sweepRound t src).1 < dirCount t := by
  have hunf : sweepRound t src =
      match lookupDir t src with
      | none => (t, 0)
      | some sub => (walkBU sub src).foldl sweepStep (t, 0) := rfl
  rcases hl : lookupDir t src with _ | sub
  · rw [hunf, hl] at h
    exact absurd rfl h
  · rw [hunf, hl] at h ⊢
    dsimp only at h ⊢
    obtain ⟨f1, f2, f3⟩ := sweepFold_dirCount (walkBU sub src) (t, 0)
    exact f3 (by omega)

/-- Step 6's `while True` rounds for one source, the round budget explicit:
every round that deletes something removes at least one directory node
(`sweepRound_dirCount_lt`), so the `dirCount t` budget supplied by
`sweepRounds` is never exhausted — the `while True` of the source always
terminates. -/
def sweepRoundsGo : Nat → FSTree → FPath → FSTree
  | 0, t, _ => t
  | fuel + 1, t, src =>
    if (sweepRound t src).2 = 0 then (sweepRound t src).1
    else sweepRoundsGo fuel (sweepRound t src).1 src

/-- Step 6's `while True` for one source: repeat rounds until one deletes
nothing. -/
def sweepRounds (t : FSTree) (src : FPath) : FSTree :=
  sweepRoundsGo (dirCount t) t src

/-- Step 6 over all source roots in order (a non-directory source
contributes nothing). -/
def sweepSources : FSTree → List FPath → FSTree
  | t, [] => t
  | t, src :: rest => sweepSources (sweepRounds t src) rest

/-! ### The per-file loop and whole run of `_run_merge` -/

/-- Result of one iteration of the per-file loop. -/
inductive StepResult where
  | ok : MState → StepResult
  | aborted : MState → StepResult

/-- One iteration of the per-file loop (source lines 695–708): resolve the
file's relative directory in the target, place the file, then climb-and
-remove newly empty source directories.  `_MergeAbortedError` from the
resolution stops the run.  The unreachable `none` of the fuelled probe
leaves the state unchanged (C1 proves it cannot occur). -/
def processOne (simF : String → String → ℚ) (resp : Nat → DecisionResponse)
    (thr : Nat → ℚ) (target : FPath) (st : MState) (f : FPath × FPath × FPath) :
    StepResult :=
  match resolve_target_dir simF resp thr target f.2.1.dropLast st with
  | .aborted st' => .aborted st'
  | .ok destDir st' =>
    match merge_single_file st'.fs f.2.2 destDir with
    | some (fs2, _) =>
      let srcDir := f.2.2.dropLast
      let fs3 := if isdir fs2 srcDir then remove_empty_dirs_upward fs2 srcDir f.1 else fs2
      .ok (MState.mk fs3 st'.cache st'.reqs st'.rIdx st'.tIdx)
    | none => .ok st'

/-- The per-file loop: process files in order; an abort stops immediately
(the `break` of the `except _MergeAbortedError` arm), returning the state at
the abort and the aborted flag. -/
def runFiles (simF : String → String → ℚ) (resp : Nat → DecisionResponse)
    (thr : Nat → ℚ) (target : FPath) :
    MState → List (FPath × FPath × FPath) → MState × Bool
  | st, [] => (st, false)
  | st, f :: rest =>
    match processOne simF resp thr target st f with
    | .aborted st' => (st', true)
    | .ok st' => runFiles simF resp thr target st' rest

/-- `_run_merge` (source lines 634–791): enumerate all sources, sort
flattest-first, run the per-file loop from a fresh state (empty cache — the
run owns `_resolve_cache`), and run the final sweep only when the loop was
not aborted.  Logging and the progress display are outside the model. -/
def run_merge (simF : String → String → ℚ) (resp : Nat → DecisionResponse)
    (thr : Nat → ℚ) (t : FSTree) (target : FPath) (sources : List FPath) :
    MState × Bool :=
  match runFiles simF resp thr target (MState.mk t [] [] 0 0)
      (sortFileList (sources.flatMap (enumFiles t))) with
  | (st, true) => (st, true)
  | (st, false) =>
    (MState.mk (sweepSources st.fs sources) st.cache st.reqs st.rIdx st.tIdx, false)

/-- C10.  The per-file loop of `run_merge` consumes exactly
`sortFileList (sources.flatMap (enumFiles t))`; that list is pairwise sorted
by nondecreasing separator count of the relative path ("flattest paths
first"), so every file of a shallower source directory is processed before
any file of a strictly deeper one. -/
theorem C10_processed_in_nondecreasing_depth (t : FSTree) (sources : List FPath) :
    (sortFileList (sources.flatMap (enumFiles t))).Pairwise
      (fun a b => sepCount a.2.1 ≤ sepCount b.2.1) := by
  have h := @List.sorted_mergeSort (FPath × FPath × FPath)
    (fun a b => decide (sepCount a.2.1 ≤ sepCount b.2.1))
    (fun a b c hab hbc => by
      simp only [decide_eq_true_eq] at *
      omega)
    (fun a b => by
      simp only [Bool.or_eq_true, decide_eq_true_eq]
      omega)
    (sources.flatMap (enumFiles t))
  unfold sortFileList
  exact h.imp fun hab => by simpa using hab

/-- The C6 scene: source root `S` whose protected staging directory
`_Quelle` has a subdirectory `sub` holding a real file, next to an empty
target `T`. -/
def tC6 : FSTree :=
  .node [("S", .node [("_Quelle", .node [("sub", .node [] [("x.txt", [1])])] [])] []),
         ("T", .node [] [])] []

/-- The C6 merge run (similarity, responses and threshold are irrelevant:
no similar folders exist, so no dialog can fire). -/
def runC6 : MState × Bool :=
  runFiles (fun _ _ => 0) (fun _ => DecisionResponse.skip) (fun _ => 1) ["T"]
    (MState.mk tC6 [] [] 0 0) (sortFileList (enumFiles tC6 ["S"]))

/-- C6 (code bug exhibited at the failing input `tC6`).  The file
`S/_Quelle/sub/x.txt` lies inside the protected staging directory, yet the
enumeration lists it — the `continue` on `_Quelle` dirpaths skips only files
sitting directly in `_Quelle` and does not prune `os.walk`'s descent into
its subdirectories — and the merge run then moves it into the target and
deletes the emptied `S/_Quelle/sub` (while `S/_Quelle` itself survives, the
upward removal stopping at its basename). -/
theorem C6_quarantine_descended_into :
    (enumFiles tC6 ["S"]).map (fun f => f.2.2) = [["S", "_Quelle", "sub", "x.txt"]] ∧
    lookupFile (runC6.1.fs) ["T", "_Quelle", "sub", "x.txt"] = some [1] ∧
    lookupFile (runC6.1.fs) ["S", "_Quelle", "sub", "x.txt"] = none ∧
    isdir (runC6.1.fs) ["S", "_Quelle", "sub"] = false ∧
    isdir (runC6.1.fs) ["S", "_Quelle"] = true := by
  have hsort : sortFileList (enumFiles tC6 ["S"]) = enumFiles tC6 ["S"] := by
    rw [show enumFiles tC6 ["S"] =
      [(["S"], ["_Quelle", "sub", "x.txt"], ["S", "_Quelle", "sub", "x.txt"])] from by decide]
    exact List.mergeSort_singleton _
  refine ⟨by decide, ?_, ?_, ?_, ?_⟩ <;>
    · show _
      unfold runC6
      rw [hsort]
      decide

/-- The state carried by a segment result, whichever way it ended. -/
def segResultState : SegResult → MState
  | .ok _ st => st
  | .aborted st => st

/-- Resolution never touches file contents: its only filesystem effect is
`os.makedirs`. -/
theorem resolveSeg_files (simF : String → String → ℚ) (resp : Nat → DecisionResponse)
    (thr : Nat → ℚ) (st : MState) (cur : FPath) (seg : String) (key : FPath) :
    ∀ q, lookupFile (segResultState (resolveSeg simF resp thr st cur seg key)).fs q =
      lookupFile st.fs q := by
  intro q
  unfold resolveSeg
  split
  · rfl
  · split
    · rfl
    · dsimp only
      split
      · split
        · rfl
        · rfl
        · exact makedirs_lookupFile _ _ _
      · exact makedirs_lookupFile _ _ _
    · exact makedirs_lookupFile _ _ _

theorem resolveGo_files (simF : String → String → ℚ) (resp : Nat → DecisionResponse)
    (thr : Nat → ℚ) :
    ∀ (segs : List String) (cur sofar : FPath) (st : MState) (q : FPath),
      lookupFile (segResultState (resolveGo simF resp thr segs cur sofar st)).fs q =
        lookupFile st.fs q := by
  intro segs
  induction segs with
  | nil => intro cur sofar st q; rfl
  | cons seg rest ih =>
    intro cur sofar st q
    unfold resolveGo
    cases hseg : resolveSeg simF resp thr st cur seg (sofar ++ [seg]) with
    | ok cur' st' =>
      have h1 := resolveSeg_files simF resp thr st cur seg (sofar ++ [seg]) q
      rw [hseg] at h1
      rw [← h1]
      exact ih cur' (sofar ++ [seg]) st' q
    | aborted st' =>
      have h1 := resolveSeg_files simF resp thr st cur seg (sofar ++ [seg]) q
      rw [hseg] at h1
      exact h1

theorem resolve_target_dir_files (simF : String → String → ℚ)
    (resp : Nat → DecisionResponse) (thr : Nat → ℚ) (target rel : FPath) (st : MState) :
    ∀ q, lookupFile (segResultState (resolve_target_dir simF resp thr target rel st)).fs q =
      lookupFile st.fs q := by
  intro q
  unfold resolve_target_dir
  split
  · rfl
  · split
    · rfl
    · exact resolveGo_files simF resp thr _ _ _ _ q

/-- C5.  An abort answer stops the run immediately: the per-file loop
returns at once with the state at the abort (files already placed by earlier
iterations live in that state; the remaining file list is not consumed); the
aborting resolution step changed no file anywhere (its only effects are
directory creations for segments before the aborted one, plus the cache and
the request log); and the whole run of `run_merge` then returns that very
state, skipping `sweepSources`, the final empty-directory sweep. -/
theorem C5_abort_stops_run (simF : String → String → ℚ)
    (resp : Nat → DecisionResponse) (thr : Nat → ℚ) (target : FPath)
    (st st' : MState) (f : FPath × FPath × FPath)
    (rest : List (FPath × FPath × FPath))
    (hab : processOne simF resp thr target st f = .aborted st') :
    runFiles simF resp thr target st (f :: rest) = (st', true) ∧
    (∀ q, lookupFile st'.fs q = lookupFile st.fs q) ∧
    (∀ (t : FSTree) (sources : List FPath) (stA : MState),
      runFiles simF resp thr target (MState.mk t [] [] 0 0)
        (sortFileList (sources.flatMap (enumFiles t))) = (stA, true) →
      run_merge simF resp thr t target sources = (stA, true)) := by
  refine ⟨?_, ?_, ?_⟩
  · unfold runFiles
    rw [hab]
  · intro q
    unfold processOne at hab
    cases hres : resolve_target_dir simF resp thr target f.2.1.dropLast st with
    | ok destDir st'' =>
      rw [hres] at hab
      dsimp only at hab
      split at hab <;> cases hab
    | aborted st'' =>
      rw [hres] at hab
      have h1 := resolve_target_dir_files simF resp thr target f.2.1.dropLast st q
      rw [hres] at h1
      cases hab
      exact h1
  · intro t sources stA h
    unfold run_merge
    rw [h]

/-- One half, built with an explicit denominator so that rational
comparisons on it reduce inside the kernel (ℚ division normalises through
`Nat.gcd`, which does not). -/
def half : ℚ := ⟨1, 2, by decide, Nat.coprime_one_left 2⟩

/-- Concrete C5 scene: the target already holds `Docs2`, the source holds
`Docs/f.txt`; the abstracted similarity of `Docs` and `Docs2` is `half`
(difflib's actual ratio for these names is 2·4/9 ≈ 0.89 — any value in the
window behaves the same; the score function is a parameter), the threshold
control stands at 0, so the dialog fires and the user answers abort. -/
def tC5 : FSTree :=
  .node [("S", .node [("Docs", .node [] [("f.txt", [1])])] []),
         ("T", .node [("Docs2", .node [] [])] [])] []

/-- The state in which the C5 run aborts: nothing moved, one DecisionRequest
emitted for relative path `Docs`, one response consumed, one threshold read. -/
def stC5abort : MState :=
  MState.mk tC5 [] [⟨["Docs"], "Docs", "Docs2"⟩] 1 1

/-- Witness for C5 at a concrete aborted run. -/
theorem C5_witness :
    runFiles (fun _ _ => half) (fun _ => DecisionResponse.abort)
      (fun _ => 0) ["T"] (MState.mk tC5 [] [] 0 0)
      [(["S"], ["Docs", "f.txt"], ["S", "Docs", "f.txt"])] = (stC5abort, true) :=
  (C5_abort_stops_run (fun _ _ => half) (fun _ => DecisionResponse.abort)
    (fun _ => 0) ["T"] (MState.mk tC5 [] [] 0 0) stC5abort
    (["S"], ["Docs", "f.txt"], ["S", "Docs", "f.txt"]) [] (by rfl)).1

theorem assocFind_append_some {α : Type} {k : String} {l : List (String × α)}
    {v : α} (h : assocFind k l = some v) (l₂ : List (String × α)) :
    assocFind k (l ++ l₂) = some v := by
  rw [assocFind_append, h]

theorem assocFindP_append_some {α : Type} {k : FPath} {l : List (FPath × α)}
    {v : α} (h : assocFind k l = some v) (l₂ : List (FPath × α)) :
    assocFind k (l ++ l₂) = some v := by
  induction l with
  | nil => cases h
  | cons e rest ih =>
    rw [List.cons_append, assocFind]
    rw [assocFind] at h
    by_cases he : e.1 = k
    · rw [if_pos he] at h ⊢
      exact h
    · rw [if_neg he] at h ⊢
      exact ih h

theorem assocFindP_append_fresh {α : Type} {k : FPath} {l : List (FPath × α)}
    (h : assocFind k l = none) (v : α) :
    assocFind k (l ++ [(k, v)]) = some v := by
  induction l with
  | nil => rw [List.nil_append, assocFind, if_pos rfl]
  | cons e rest ih =>
    rw [assocFind] at h
    by_cases he : e.1 = k
    · rw [if_pos he] at h
      cases h
    · rw [if_neg he] at h
      rw [List.cons_append, assocFind, if_neg he]
      exact ih h

/-- The request-log/cache invariant of a merge run: emitted request keys are
pairwise distinct and every emitted key is already resolved in the cache
(the source caches the chosen directory immediately after the dialog in
every non-abort branch). -/
def ReqInv (st : MState) : Prop :=
  (st.reqs.map fun r => r.key).Nodup ∧
  ∀ r ∈ st.reqs, (assocFind r.key st.cache).isSome = true

theorem resolveSeg_cache_mono (simF : String → String → ℚ)
    (resp : Nat → DecisionResponse) (thr : Nat → ℚ) (st : MState)
    (cur : FPath) (seg : String) (key : FPath) (k : FPath) (v : FPath)
    (hk : assocFind k st.cache = some v) :
    assocFind k (segResultState (resolveSeg simF resp thr st cur seg key)).cache =
      some v := by
  unfold resolveSeg
  rcases hkey : assocFind key st.cache with _ | w
  · rcases hfb : find_best_matching_folder simF st.fs cur seg with ⟨ex, b, sc⟩
    rcases ex with _ | e
    · rcases b with _ | bp
      · exact assocFindP_append_some hk _
      · dsimp only
        by_cases hcond : sc ≥ thr st.tIdx ∧ sc < 1
        · rw [if_pos hcond]
          rcases resp st.rIdx with _ | _ | _
          · exact assocFindP_append_some hk _
          · exact assocFindP_append_some hk _
          · exact hk
        · rw [if_neg hcond]
          exact assocFindP_append_some hk _
    · exact assocFindP_append_some hk _
  · exact hk

theorem resolveSeg_reqInv (simF : String → String → ℚ)
    (resp : Nat → DecisionResponse) (thr : Nat → ℚ) (st : MState)
    (cur : FPath) (seg : String) (key : FPath) (hinv : ReqInv st) :
    (∀ cur' st', resolveSeg simF resp thr st cur seg key = .ok cur' st' → ReqInv st') ∧
    (∀ st', resolveSeg simF resp thr st cur seg key = .aborted st' →
      (st'.reqs.map fun r => r.key).Nodup) := by
  have hmember : ∀ (newCache : List (FPath × FPath)),
      (∀ r ∈ st.reqs, (assocFind r.key newCache).isSome = true) →
      ReqInv (MState.mk st.fs newCache st.reqs st.rIdx st.tIdx) :=
    fun _ hmem => ⟨hinv.1, hmem⟩
  have hpreserve : ∀ (ext : List (FPath × FPath)) (r : DecisionRequest), r ∈ st.reqs →
      (assocFind r.key (st.cache ++ ext)).isSome = true := by
    intro ext r hr
    have := hinv.2 r hr
    rw [Option.isSome_iff_exists] at this
    obtain ⟨w, hw⟩ := this
    rw [assocFindP_append_some hw ext]
    rfl
  unfold resolveSeg
  rcases hkey : assocFind key st.cache with _ | w
  · have hfresh : ∀ r ∈ st.reqs, r.key ≠ key := by
      intro r hr hcontra
      have := hinv.2 r hr
      rw [hcontra, hkey] at this
      cases this
    rcases hfb : find_best_matching_folder simF st.fs cur seg with ⟨ex, b, sc⟩
    rcases ex with _ | e
    · rcases b with _ | bp
      · exact ⟨fun cur' st' h => by
          cases h
          exact hmember _ (fun r hr => hpreserve _ r hr), fun st' h => by cases h⟩
      · dsimp only
        by_cases hcond : sc ≥ thr st.tIdx ∧ sc < 1
        · rw [if_pos hcond]
          have hkeysnd : ((st.reqs ++ [DecisionRequest.mk key seg (baseName bp)]).map fun r => r.key).Nodup := by
            rw [List.map_append]
            apply List.Nodup.append hinv.1 (by simp)
            intro x hx hy
            rw [List.map_cons, List.map_nil, List.mem_singleton] at hy
            rw [List.mem_map] at hx
            obtain ⟨r, hr, hrk⟩ := hx
            exact hfresh r hr (by rw [hrk, hy])
          have hmemnew : ∀ (newDir : FPath) (r : DecisionRequest),
              r ∈ st.reqs ++ [DecisionRequest.mk key seg (baseName bp)] →
              (assocFind r.key (st.cache ++ [(key, newDir)])).isSome = true := by
            intro newDir r hr
            rcases List.mem_append.mp hr with hr' | hr'
            · exact hpreserve _ r hr'
            · rw [List.mem_singleton] at hr'
              subst hr'
              rw [assocFindP_append_fresh hkey newDir]
              rfl
          rcases hresp : resp st.rIdx with _ | _ | _
          · -- use_existing
            refine ⟨fun cur' st' h => ?_, fun st' h => by cases h⟩
            cases h
            exact ⟨hkeysnd, hmemnew bp⟩
          · -- skip
            refine ⟨fun cur' st' h => ?_, fun st' h => by cases h⟩
            cases h
            exact ⟨hkeysnd, hmemnew (cur ++ [seg])⟩
          · -- abort
            refine ⟨(fun cur' st' h => by cases h), fun st' h => ?_⟩
            cases h
            exact hkeysnd
        · rw [if_neg hcond]
          exact ⟨fun cur' st' h => by
            cases h
            exact ⟨hinv.1, fun r hr => hpreserve _ r hr⟩, fun st' h => by cases h⟩
    · exact ⟨fun cur' st' h => by
        cases h
        exact ⟨hinv.1, fun r hr => hpreserve _ r hr⟩, fun st' h => by cases h⟩
  · exact ⟨fun cur' st' h => by
      cases h
      exact hinv, fun st' h => by cases h⟩

theorem resolveGo_cache_mono (simF : String → String → ℚ)
    (resp : Nat → DecisionResponse) (thr : Nat → ℚ) :
    ∀ (segs : List String) (cur sofar : FPath) (st : MState) (k v : FPath),
      assocFind k st.cache = some v →
      assocFind k (segResultState (resolveGo simF resp thr segs cur sofar st)).cache =
        some v := by
  intro segs
  induction segs with
  | nil => intro cur sofar st k v hk; exact hk
  | cons seg rest ih =>
    intro cur sofar st k v hk
    unfold resolveGo
    cases hseg : resolveSeg simF resp thr st cur seg (sofar ++ [seg]) with
    | ok cur' st' =>
      have h1 := resolveSeg_cache_mono simF resp thr st cur seg (sofar ++ [seg]) k v hk
      rw [hseg] at h1
      exact ih cur' (sofar ++ [seg]) st' k v h1
    | aborted st' =>
      have h1 := resolveSeg_cache_mono simF resp thr st cur seg (sofar ++ [seg]) k v hk
      rw [hseg] at h1
      exact h1

theorem resolveGo_reqInv (simF : String → String → ℚ)
    (resp : Nat → DecisionResponse) (thr : Nat → ℚ) :
    ∀ (segs : List String) (cur sofar : FPath) (st : MState), ReqInv st →
      (∀ d st', resolveGo simF resp thr segs cur sofar st = .ok d st' → ReqInv st') ∧
      (∀ st', resolveGo simF resp thr segs cur sofar st = .aborted st' →
        (st'.reqs.map fun r => r.key).Nodup) := by
  intro segs
  induction segs with
  | nil =>
    intro cur sofar st hinv
    refine ⟨fun d st' h => ?_, fun st' h => ?_⟩
    · cases h; exact hinv
    · cases h
  | cons seg rest ih =>
    intro cur sofar st hinv
    unfold resolveGo
    cases hseg : resolveSeg simF resp thr st cur seg (sofar ++ [seg]) with
    | ok cur' st'' =>
      have hinv'' := (resolveSeg_reqInv simF resp thr st cur seg (sofar ++ [seg])
        hinv).1 cur' st'' hseg
      exact ih cur' (sofar ++ [seg]) st'' hinv''
    | aborted st'' =>
      refine ⟨(fun d st' h => by cases h), fun st' h => ?_⟩
      cases h
      exact (resolveSeg_reqInv simF resp thr st cur seg (sofar ++ [seg]) hinv).2 st'' hseg

theorem resolve_target_dir_cache_mono (simF : String → String → ℚ)
    (resp : Nat → DecisionResponse) (thr : Nat → ℚ) (target : FPath)
    (rel : FPath) (st : MState) (k v : FPath)
    (hk : assocFind k st.cache = some v) :
    assocFind k
      (segResultState (resolve_target_dir simF resp thr target rel st)).cache =
      some v := by
  unfold resolve_target_dir
  rcases rel with _ | ⟨a, as⟩
  · exact hk
  · rcases hc : assocFind (a :: as : FPath) st.cache with _ | w
    · exact resolveGo_cache_mono simF resp thr (a :: as) target [] st k v hk
    · exact hk

theorem resolve_target_dir_reqInv (simF : String → String → ℚ)
    (resp : Nat → DecisionResponse) (thr : Nat → ℚ) (target : FPath)
    (rel : FPath) (st : MState) (hinv : ReqInv st) :
    (∀ d st', resolve_target_dir simF resp thr target rel st = .ok d st' → ReqInv st') ∧
    (∀ st', resolve_target_dir simF resp thr target rel st = .aborted st' →
      (st'.reqs.map fun r => r.key).Nodup) := by
  unfold resolve_target_dir
  rcases rel with _ | ⟨a, as⟩
  · refine ⟨fun d st' h => ?_, fun st' h => ?_⟩
    · cases h; exact hinv
    · cases h
  · rcases hc : assocFind (a :: as : FPath) st.cache with _ | w
    · exact resolveGo_reqInv simF resp thr (a :: as) target [] st hinv
    · refine ⟨fun d st' h => ?_, fun st' h => ?_⟩
      · cases h; exact hinv
      · cases h

theorem processOne_reqInv (simF : String → String → ℚ)
    (resp : Nat → DecisionResponse) (thr : Nat → ℚ) (target : FPath)
    (st : MState) (f : FPath × FPath × FPath) (hinv : ReqInv st) :
    (∀ st', processOne simF resp thr target st f = .ok st' → ReqInv st') ∧
    (∀ st', processOne simF resp thr target st f = .aborted st' →
      (st'.reqs.map fun r => r.key).Nodup) := by
  unfold processOne
  cases hres : resolve_target_dir simF resp thr target f.2.1.dropLast st with
  | ok destDir st'' =>
    have hinv'' := (resolve_target_dir_reqInv simF resp thr target
      f.2.1.dropLast st hinv).1 destDir st'' hres
    refine ⟨fun st' h => ?_, fun st' h => ?_⟩
    · dsimp only at h
      split at h
      · cases h
        exact ⟨hinv''.1, hinv''.2⟩
      · cases h
        exact hinv''
    · dsimp only at h
      split at h <;> cases h
  | aborted st'' =>
    refine ⟨(fun st' h => by cases h), fun st' h => ?_⟩
    cases h
    exact (resolve_target_dir_reqInv simF resp thr target
      f.2.1.dropLast st hinv).2 st'' hres

theorem runFiles_reqInv (simF : String → String → ℚ)
    (resp : Nat → DecisionResponse) (thr : Nat → ℚ) (target : FPath) :
    ∀ (files : List (FPath × FPath × FPath)) (st : MState), ReqInv st →
      (((runFiles simF resp thr target st files).1.reqs.map fun r => r.key)).Nodup := by
  intro files
  induction files with
  | nil => intro st hinv; exact hinv.1
  | cons f rest ih =>
    intro st hinv
    unfold runFiles
    cases hstep : processOne simF resp thr target st f with
    | aborted st' =>
      exact (processOne_reqInv simF resp thr target st f hinv).2 st' hstep
    | ok st' =>
      exact ih st' ((processOne_reqInv simF resp thr target st f hinv).1 st' hstep)

/-- C3.  Memoized resolution: (1) a whole relative path already in the cache
resolves to its cached absolute target with the state untouched — no scan,
no dialog, no filesystem effect; (2) likewise per segment: a cached
cumulative prefix is reused as-is while resolving any longer path, yielding
the very directory cached for that prefix; (3) no resolution ever
overwrites or drops an existing cache binding, so re-resolving always
returns the same absolute path for the remainder of the run; and (4) over a
whole per-file loop started from the fresh state `run_merge` creates, the
emitted DecisionRequests carry pairwise distinct relative-path keys — at
most one dialog is ever issued for any relative directory path. -/
theorem C3_resolution_memoized (simF : String → String → ℚ)
    (resp : Nat → DecisionResponse) (thr : Nat → ℚ) (target : FPath) :
    (∀ (st : MState) (p v : FPath), p ≠ [] → assocFind p st.cache = some v →
      resolve_target_dir simF resp thr target p st = .ok v st) ∧
    (∀ (st : MState) (cur : FPath) (seg : String) (key v : FPath),
      assocFind key st.cache = some v →
      resolveSeg simF resp thr st cur seg key = .ok v st) ∧
    (∀ (st : MState) (rel k v : FPath), assocFind k st.cache = some v →
      assocFind k
        (segResultState (resolve_target_dir simF resp thr target rel st)).cache =
        some v) ∧
    (∀ (t : FSTree) (files : List (FPath × FPath × FPath)),
      (((runFiles simF resp thr target (MState.mk t [] [] 0 0) files).1.reqs.map
        fun r => r.key)).Nodup) := by
  refine ⟨?_, ?_, ?_, ?_⟩
  · intro st p v hp hc
    unfold resolve_target_dir
    rcases p with _ | ⟨a, as⟩
    · exact absurd rfl hp
    · rw [hc]
  · intro st cur seg key v hc
    unfold resolveSeg
    rw [hc]
  · intro st rel k v hc
    exact resolve_target_dir_cache_mono simF resp thr target rel st k v hc
  · intro t files
    exact runFiles_reqInv simF resp thr target files (MState.mk t [] [] 0 0)
      ⟨List.nodup_nil, fun r hr => absurd hr (List.not_mem_nil r)⟩

/-- Witness for C3: a concretely cached relative path resolves to its cached
target with the state unchanged, the cache-hit hypothesis discharged
concretely. -/
theorem C3_witness :
    resolve_target_dir (fun _ _ => 0) (fun _ => DecisionResponse.skip) (fun _ => 0)
      ["T"] ["d"]
      (MState.mk (FSTree.node [] []) [(["d"], ["T", "d"])] [] 0 0) =
      .ok ["T", "d"] (MState.mk (FSTree.node [] []) [(["d"], ["T", "d"])] [] 0 0) :=
  (C3_resolution_memoized (fun _ _ => 0) (fun _ => DecisionResponse.skip)
    (fun _ => 0) ["T"]).1
    (MState.mk (FSTree.node [] []) [(["d"], ["T", "d"])] [] 0 0) ["d"] ["T", "d"]
    (by decide) (by decide)

/-! ### C8: snapshot semantics (modelled from the spec, not the source)

The spec says a run "must capture its thresholds at start".  The following
`…Snap` definitions are that snapshot semantics, written from the spec's
words: the threshold is a single rational `c` fixed for the whole run, and
no decision ever consults the shared variable again.  (`tIdx` is still
advanced at each similarity decision purely as instrumentation, so states
of the two semantics are directly comparable.)  They are to be compared
with `resolveSeg`/`runFiles`, which were translated from the source and
read `thr st.tIdx` afresh at every decision. -/

/-- Snapshot-semantics counterpart of `resolveSeg` (from the spec's words):
the threshold is the captured constant `c`. -/
def resolveSegSnap (simF : String → String → ℚ) (resp : Nat → DecisionResponse)
    (c : ℚ) (st : MState) (cur : FPath) (seg : String) (key : FPath) :
    SegResult :=
  match assocFind key st.cache with
  | some v => .ok v st
  | none =>
    match find_best_matching_folder simF st.fs cur seg with
    | (some e, _, _) => .ok e { st with cache := st.cache ++ [(key, e)] }
    | (none, some bp, score) =>
      let st1 := MState.mk st.fs st.cache st.reqs st.rIdx (st.tIdx + 1)
      if score ≥ c ∧ score < 1 then
        let st2 := MState.mk st1.fs st1.cache
          (st1.reqs ++ [⟨key, seg, baseName bp⟩]) (st1.rIdx + 1) st1.tIdx
        match resp st1.rIdx with
        | .abort => .aborted st2
        | .use_existing =>
          .ok bp (MState.mk st2.fs (st2.cache ++ [(key, bp)]) st2.reqs st2.rIdx st2.tIdx)
        | .skip =>
          .ok (cur ++ [seg]) (MState.mk (makedirs st2.fs (cur ++ [seg]))
            (st2.cache ++ [(key, cur ++ [seg])]) st2.reqs st2.rIdx st2.tIdx)
      else
        .ok (cur ++ [seg]) (MState.mk (makedirs st1.fs (cur ++ [seg]))
          (st1.cache ++ [(key, cur ++ [seg])]) st1.reqs st1.rIdx st1.tIdx)
    | (none, none, _) =>
      .ok (cur ++ [seg]) (MState.mk (makedirs st.fs (cur ++ [seg]))
        (st.cache ++ [(key, cur ++ [seg])]) st.reqs st.rIdx st.tIdx)

/-- Snapshot-semantics segment loop. -/
def resolveGoSnap (simF : String → String → ℚ) (resp : Nat → DecisionResponse)
    (c : ℚ) : List String → FPath → FPath → MState → SegResult
  | [], cur, _, st => .ok cur st
  | seg :: rest, cur, sofar, st =>
    match resolveSegSnap simF resp c st cur seg (sofar ++ [seg]) with
    | .aborted st' => .aborted st'
    | .ok cur' st' => resolveGoSnap simF resp c rest cur' (sofar ++ [seg]) st'

/-- Snapshot-semantics `_resolve_target_dir`. -/
def resolve_target_dir_snap (simF : String → String → ℚ)
    (resp : Nat → DecisionResponse) (c : ℚ) (targetRoot : FPath) (rel : FPath)
    (st : MState) : SegResult :=
  match rel with
  | [] => .ok targetRoot st
  | _ :: _ =>
    match assocFind rel st.cache with
    | some v => .ok v st
    | none => resolveGoSnap simF resp c rel targetRoot [] st

/-- Snapshot-semantics per-file step. -/
def processOneSnap (simF : String → String → ℚ) (resp : Nat → DecisionResponse)
    (c : ℚ) (target : FPath) (st : MState) (f : FPath × FPath × FPath) :
    StepResult :=
  match resolve_target_dir_snap simF resp c target f.2.1.dropLast st with
  | .aborted st' => .aborted st'
  | .ok destDir st' =>
    match merge_single_file st'.fs f.2.2 destDir with
    | some (fs2, _) =>
      let srcDir := f.2.2.dropLast
      let fs3 := if isdir fs2 srcDir then remove_empty_dirs_upward fs2 srcDir f.1 else fs2
      .ok (MState.mk fs3 st'.cache st'.reqs st'.rIdx st'.tIdx)
    | none => .ok st'

/-- Snapshot-semantics per-file loop. -/
def runFilesSnap (simF : String → String → ℚ) (resp : Nat → DecisionResponse)
    (c : ℚ) (target : FPath) :
    MState → List (FPath × FPath × FPath) → MState × Bool
  | st, [] => (st, false)
  | st, f :: rest =>
    match processOneSnap simF resp c target st f with
    | .aborted st' => (st', true)
    | .ok st' => runFilesSnap simF resp c target st' rest

theorem resolveGoSnap_eq (simF : String → String → ℚ)
    (resp : Nat → DecisionResponse) (c : ℚ) :
    ∀ (segs : List String) (cur sofar : FPath) (st : MState),
      resolveGo simF resp (fun _ => c) segs cur sofar st =
        resolveGoSnap simF resp c segs cur sofar st := by
  intro segs
  induction segs with
  | nil => intro cur sofar st; rfl
  | cons seg rest ih =>
    intro cur sofar st
    have hs : resolveSeg simF resp (fun _ => c) st cur seg (sofar ++ [seg]) =
        resolveSegSnap simF resp c st cur seg (sofar ++ [seg]) := rfl
    unfold resolveGo resolveGoSnap
    rw [hs]
    cases resolveSegSnap simF resp c st cur seg (sofar ++ [seg]) with
    | aborted st' => rfl
    | ok cur' st' => exact ih cur' (sofar ++ [seg]) st'

theorem runFilesSnap_eq (simF : String → String → ℚ)
    (resp : Nat → DecisionResponse) (c : ℚ) (target : FPath) :
    ∀ (files : List (FPath × FPath × FPath)) (st : MState),
      runFiles simF resp (fun _ => c) target st files =
        runFilesSnap simF resp c target st files := by
  intro files
  induction files with
  | nil => intro st; rfl
  | cons f rest ih =>
    intro st
    have hres : resolve_target_dir simF resp (fun _ => c) target f.2.1.dropLast st =
        resolve_target_dir_snap simF resp c target f.2.1.dropLast st := by
      unfold resolve_target_dir resolve_target_dir_snap
      rcases f.2.1.dropLast with _ | ⟨a, as⟩
      · rfl
      · rcases assocFind (a :: as : FPath) st.cache with _ | v
        · exact resolveGoSnap_eq simF resp c (a :: as) target [] st
        · rfl
    have hp : processOne simF resp (fun _ => c) target st f =
        processOneSnap simF resp c target st f := by
      unfold processOne processOneSnap
      rw [hres]
    unfold runFiles runFilesSnap
    rw [hp]
    cases processOneSnap simF resp c target st f with
    | aborted st' => rfl
    | ok st' => exact ih st'

/-- C8 (amended).  The source reads the shared `SIMILARITY_THRESHOLD`
afresh at every similarity decision rather than capturing it at run start;
only when the control is held constant for the whole run does the
reference behaviour coincide with the spec's snapshot semantics: a
per-file loop run against the constant threshold history `fun _ => c` is
equal — final state, emitted DecisionRequests, abort flag and all — to the
spec-derived snapshot run that captured `c` at start.  (The counterexample
shows the original claim false: a mid-run change of the shared variable
changes which DecisionRequests are emitted.) -/
theorem C8_live_reads_match_snapshot_only_when_constant
    (simF : String → String → ℚ) (resp : Nat → DecisionResponse) (c : ℚ)
    (target : FPath) (files : List (FPath × FPath × FPath)) (st : MState) :
    runFiles simF resp (fun _ => c) target st files =
      runFilesSnap simF resp c target st files :=
  runFilesSnap_eq simF resp c target files st

/-- The C8 scene: two source files under similar-named target folders. -/
def tC8 : FSTree :=
  .node [("S", .node [("Docs", .node [] [("f.txt", [1])]),
                      ("Music", .node [] [("g.txt", [2])])] []),
         ("T", .node [("Docs2", .node [] []), ("Music2", .node [] [])] [])] []

/-- The C8 file list, as `run_merge` would enumerate and sort it. -/
def filesC8 : List (FPath × FPath × FPath) :=
  [(["S"], ["Docs", "f.txt"], ["S", "Docs", "f.txt"]),
   (["S"], ["Music", "g.txt"], ["S", "Music", "g.txt"])]

/-- Threshold history A: the control sits at 0 for the whole run. -/
def thrA8 : Nat → ℚ := fun _ => 0

/-- Threshold history B: the control starts at 0 and is moved to 1 after
the run's first read — same value at run start as history A. -/
def thrB8 : Nat → ℚ := fun i => if i = 0 then 0 else 1

/-- C8 counterexample: same tree, same files, same decision responses, and
the same threshold value at run start (`thrA8 0 = thrB8 0`), yet moving the
shared threshold variable mid-run (history B) changes the emitted
DecisionRequests: the run against history A emits two similar-folder
dialogs, the run against history B only one — the run does not capture the
threshold at start. -/
theorem C8_counterexample :
    thrA8 0 = thrB8 0 ∧
    ((runFiles (fun _ _ => half) (fun _ => DecisionResponse.skip) thrA8 ["T"]
        (MState.mk tC8 [] [] 0 0) filesC8).1.reqs.length = 2 ∧
     (runFiles (fun _ _ => half) (fun _ => DecisionResponse.skip) thrB8 ["T"]
        (MState.mk tC8 [] [] 0 0) filesC8).1.reqs.length = 1) := by
  refine ⟨by decide, by decide, by decide⟩

/-! ### C7: the standalone empty-folder reclamation `_run_remove_empty` -/

/-- The candidate list of one reclamation round (source lines 951–957):
`os.walk(target, topdown=False)` dirpaths, excluding only the root itself —
there is no `_Quelle` check here, unlike the merge sweep. -/
def emptyCandidates (t : FSTree) (root : FPath) : List FPath :=
  match lookupDir t root with
  | none => []
  | some sub => (walkBU sub root).filter fun p => decide (p ≠ root)

/-- One directory visit of a reclamation round (source lines 967–977):
purge-and-rmdir a directory that currently exists and holds only ignorable
entries, counting it only when the rmdir succeeded (an `OSError` is caught
and counts nothing).  Unlike the merge sweep's visit there is no `_Quelle`
guard. -/
def emptyStep (acc : FSTree × Nat) (p : FPath) : FSTree × Nat :=
  if isdir acc.1 p && is_dir_only_ignorable acc.1 p then
    ((purge_ignorable_and_rmdir acc.1 p).1,
      acc.2 + if (purge_ignorable_and_rmdir acc.1 p).2 then 1 else 0)
  else acc

/-- One round of `_run_remove_empty`'s `while True`: bottom-up over the
candidates of the round-start tree. -/
def removeEmptyRound (t : FSTree) (root : FPath) : FSTree × Nat :=
  (emptyCandidates t root).foldl emptyStep (t, 0)

/-- The purge of a directory node's own ignorable file entries. -/
def purgeTop : FSTree → FSTree
  | .node ds fl => .node ds (fl.filter fun e => !(IGNORABLE_FILES.contains e.1))

theorem lookupDir_purgeIgnorableAt : ∀ (p : FPath) (t : FSTree),
    lookupDir (purgeIgnorableAt t p) p = (lookupDir t p).map purgeTop := by
  intro p
  induction p with
  | nil => intro t; cases t; rfl
  | cons s rest ih =>
    intro t
    rcases t with ⟨ds, fl⟩
    have hunfL : lookupDir (purgeIgnorableAt (FSTree.node ds fl) (s :: rest)) (s :: rest) =
        (match assocFind s (ds.map fun e =>
            if e.1 = s then (e.1, purgeIgnorableAt e.2 rest) else e) with
          | some c => lookupDir c rest
          | none => none) := rfl
    have hunfR : lookupDir (FSTree.node ds fl) (s :: rest) =
        (match assocFind s ds with
          | some c => lookupDir c rest
          | none => none) := rfl
    rw [hunfL, hunfR, assocFind_map_update ds s s (fun x => purgeIgnorableAt x rest),
      if_pos rfl]
    rcases assocFind s ds with _ | c
    · rfl
    · exact ih c

theorem lookupDir_removeDirAt_self : ∀ (p : FPath) (t : FSTree), p ≠ [] →
    lookupDir (removeDirAt t p) p = none := by
  intro p
  induction p with
  | nil => intro t h; exact absurd rfl h
  | cons s rest ih =>
    intro t _
    rcases t with ⟨ds, fl⟩
    rcases rest with _ | ⟨r, rest2⟩
    · have hunf : lookupDir (removeDirAt (FSTree.node ds fl) [s]) [s] =
          (match assocFind s (ds.filter fun e => decide (e.1 ≠ s)) with
            | some c => lookupDir c ([] : FPath)
            | none => none) := rfl
      rw [hunf, assocFind_filter_ne s s ds, if_pos rfl]
    · have hunf : lookupDir (removeDirAt (FSTree.node ds fl) (s :: r :: rest2))
            (s :: r :: rest2) =
          (match assocFind s (ds.map fun e =>
              if e.1 = s then (e.1, removeDirAt e.2 (r :: rest2)) else e) with
            | some c => lookupDir c (r :: rest2)
            | none => none) := rfl
      rw [hunf, assocFind_map_update ds s s (fun x => removeDirAt x (r :: rest2)),
        if_pos rfl]
      rcases assocFind s ds with _ | c
      · rfl
      · exact ih c (by simp)

theorem filter_ignorable_eq_nil :
    ∀ (l : List (String × List Nat)),
      (l.map fun e => e.1).all (fun n => IGNORABLE_FILES.contains n) = true →
      l.filter (fun e => !(IGNORABLE_FILES.contains e.1)) = [] := by
  intro l
  induction l with
  | nil => intro _; rfl
  | cons e rest ih =>
    intro h
    simp only [List.map_cons, List.all_cons, Bool.and_eq_true] at h
    rw [List.filter_cons, if_neg (by rw [h.1]; decide)]
    exact ih h.2

theorem emptyStep_deletes (acc : FSTree × Nat) (p : FPath) (d : FSTree)
    (hp : p ≠ []) (hd : lookupDir acc.1 p = some d)
    (hig : is_dir_only_ignorable acc.1 p = true) (hnd : d.dirsOf = []) :
    (emptyStep acc p).2 = acc.2 + 1 ∧ isdir (emptyStep acc p).1 p = false := by
  have hisdir : isdir acc.1 p = true := by unfold isdir; rw [hd]; rfl
  rcases d with ⟨ds0, fl0⟩
  have hds0 : ds0 = [] := hnd
  subst hds0
  have hall : (fl0.map fun e => e.1).all (fun n => IGNORABLE_FILES.contains n) = true := by
    have hunf : is_dir_only_ignorable acc.1 p =
        (match lookupDir acc.1 p with
          | none => false
          | some d =>
            ((d.dirsOf.map fun e => e.1) ++ d.filesOf.map fun e => e.1).all
              fun n => IGNORABLE_FILES.contains n) := rfl
    rw [hunf, hd] at hig
    exact hig
  have hfl := filter_ignorable_eq_nil fl0 hall
  have hpurge : purge_ignorable_and_rmdir acc.1 p =
      (removeDirAt (purgeIgnorableAt acc.1 p) p, true) := by
    have hunf : purge_ignorable_and_rmdir acc.1 p =
        (match lookupDir (purgeIgnorableAt acc.1 p) p with
          | some d =>
            if d.dirsOf.isEmpty && d.filesOf.isEmpty && decide (p ≠ []) then
              (removeDirAt (purgeIgnorableAt acc.1 p) p, true)
            else (purgeIgnorableAt acc.1 p, false)
          | none => (purgeIgnorableAt acc.1 p, false)) := rfl
    rw [hunf, lookupDir_purgeIgnorableAt p acc.1, hd]
    show (if (FSTree.node [] (fl0.filter fun e =>
        !(IGNORABLE_FILES.contains e.1))).dirsOf.isEmpty &&
        (FSTree.node [] (fl0.filter fun e =>
          !(IGNORABLE_FILES.contains e.1))).filesOf.isEmpty && decide (p ≠ []) then
        (removeDirAt (purgeIgnorableAt acc.1 p) p, true)
      else (purgeIgnorableAt acc.1 p, false)) = _
    rw [hfl, if_pos (by rw [decide_eq_true hp]; rfl)]
  have hstep : emptyStep acc p =
      (removeDirAt (purgeIgnorableAt acc.1 p) p, acc.2 + 1) := by
    unfold emptyStep
    rw [hisdir, hig, hpurge]
    rfl
  refine ⟨by rw [hstep], ?_⟩
  rw [hstep]
  show (lookupDir (removeDirAt (purgeIgnorableAt acc.1 p) p) p).isSome = false
  rw [lookupDir_removeDirAt_self p _ hp]
  rfl

theorem emptyStep_skips (acc : FSTree × Nat) (p : FPath)
    (h : is_dir_only_ignorable acc.1 p = false) : emptyStep acc p = acc := by
  unfold emptyStep
  rw [h, if_neg (by simp)]

theorem emptyStep_dirCount (acc : FSTree × Nat) (p : FPath) :
    dirCount (emptyStep acc p).1 ≤ dirCount acc.1 ∧
    acc.2 ≤ (emptyStep acc p).2 ∧
    (acc.2 < (emptyStep acc p).2 → dirCount (emptyStep acc p).1 < dirCount acc.1) := by
  unfold emptyStep
  by_cases h2 : (isdir acc.1 p && is_dir_only_ignorable acc.1 p) = true
  · rw [if_pos h2]
    by_cases hb : (purge_ignorable_and_rmdir acc.1 p).2 = true
    · have hlt := (purge_rmdir_dirCount acc.1 p).1 hb
      rw [if_pos hb]
      exact ⟨le_of_lt hlt, by omega, fun _ => hlt⟩
    · have heq := (purge_rmdir_dirCount acc.1 p).2 (by
        revert hb
        cases (purge_ignorable_and_rmdir acc.1 p).2 <;> simp)
      rw [if_neg hb]
      exact ⟨le_of_eq heq, by omega, fun h => by omega⟩
  · rw [if_neg h2]
    exact ⟨le_rfl, le_rfl, fun h => absurd h (lt_irrefl _)⟩

theorem emptyFold_dirCount : ∀ (l : List FPath) (acc : FSTree × Nat),
    dirCount (l.foldl emptyStep acc).1 ≤ dirCount acc.1 ∧
    acc.2 ≤ (l.foldl emptyStep acc).2 ∧
    (acc.2 < (l.foldl emptyStep acc).2 →
      dirCount (l.foldl emptyStep acc).1 < dirCount acc.1) := by
  intro l
  induction l with
  | nil => exact fun acc => ⟨le_rfl, le_rfl, fun h => absurd h (lt_irrefl _)⟩
  | cons p rest ih =>
    intro acc
    rw [List.foldl_cons]
    obtain ⟨s1, s2, s3⟩ := emptyStep_dirCount acc p
    obtain ⟨f1, f2, f3⟩ := ih (emptyStep acc p)
    refine ⟨le_trans f1 s1, le_trans s2 f2, fun h => ?_⟩
    by_cases hmid : acc.2 < (emptyStep acc p).2
    · exact lt_of_le_of_lt f1 (s3 hmid)
    · exact lt_of_lt_of_le (f3 (by omega)) s1

theorem removeEmptyRound_dirCount_lt (t : FSTree) (root : FPath)
    (h : (removeEmptyRound t root).2 ≠ 0) :
    dirCount (removeEmptyRound t root).1 < dirCount t := by
  unfold removeEmptyRound at h ⊢
  obtain ⟨f1, f2, f3⟩ := emptyFold_dirCount (emptyCandidates t root) (t, 0)
  exact f3 (by omega)

/-- `_run_remove_empty`'s `while True` rounds, the budget explicit: a round
that deletes something removes at least one directory node, so the
`dirCount t` budget supplied by `run_remove_empty` is never exhausted. -/
def removeEmptyRoundsGo : Nat → FSTree → FPath → FSTree
  | 0, t, _ => t
  | fuel + 1, t, root =>
    if (removeEmptyRound t root).2 = 0 then (removeEmptyRound t root).1
    else removeEmptyRoundsGo fuel (removeEmptyRound t root).1 root

/-- `_run_remove_empty` (source lines 931–993): repeat reclamation rounds
over the chosen folder until a round deletes nothing.  Logging, progress
display and the thread wrapper are outside the model. -/
def run_remove_empty (t : FSTree) (root : FPath) : FSTree :=
  removeEmptyRoundsGo (dirCount t) t root

theorem removeEmptyRoundsGo_fuel : ∀ (f1 : Nat) (t : FSTree) (f2 : Nat) (root : FPath),
    dirCount t ≤ f1 → dirCount t ≤ f2 →
    removeEmptyRoundsGo f1 t root = removeEmptyRoundsGo f2 t root := by
  intro f1
  induction f1 with
  | zero =>
    intro t f2 root h1 _
    exact absurd h1 (by have := dirCount_pos t; omega)
  | succ f1 ih =>
    intro t f2 root h1 h2
    cases f2 with
    | zero => exact absurd h2 (by have := dirCount_pos t; omega)
    | succ f2 =>
      show (if (removeEmptyRound t root).2 = 0 then (removeEmptyRound t root).1
          else removeEmptyRoundsGo f1 (removeEmptyRound t root).1 root) =
        (if (removeEmptyRound t root).2 = 0 then (removeEmptyRound t root).1
          else removeEmptyRoundsGo f2 (removeEmptyRound t root).1 root)
      by_cases hz : (removeEmptyRound t root).2 = 0
      · rw [if_pos hz, if_pos hz]
      · rw [if_neg hz, if_neg hz]
        have hlt := removeEmptyRound_dirCount_lt t root hz
        exact ih (removeEmptyRound t root).1 f2 root (by omega) (by omega)

/-- C7 (amended).  The standalone reclamation: (1) a round's deletion
candidates never include the root itself; (2) a visited directory that, in
the tree at visit time, exists, has no subdirectories and holds only
ignorable metadata names is deleted by its visit, the per-round counter
advancing; (3) a visit to a directory not currently only-ignorable changes
nothing; (4) a round that deletes zero directories ends the loop with that
round's tree; and (5) the `while True` always terminates — any round budget
of at least `dirCount t` yields the same final tree.  (Deliberately absent:
the spec's protection of `_Quelle` staging directories — the counterexample
shows the code deletes them, and even deletes, within one round, a staging
directory that still had real content when the round began.) -/
theorem C7_reclaim_rounds_characterized (t : FSTree) (root : FPath) :
    (∀ p ∈ emptyCandidates t root, p ≠ root) ∧
    (∀ (acc : FSTree × Nat) (p : FPath) (d : FSTree), p ≠ [] →
      lookupDir acc.1 p = some d → is_dir_only_ignorable acc.1 p = true →
      d.dirsOf = [] →
      (emptyStep acc p).2 = acc.2 + 1 ∧ isdir (emptyStep acc p).1 p = false) ∧
    (∀ (acc : FSTree × Nat) (p : FPath),
      is_dir_only_ignorable acc.1 p = false → emptyStep acc p = acc) ∧
    ((removeEmptyRound t root).2 = 0 →
      run_remove_empty t root = (removeEmptyRound t root).1) ∧
    (∀ fuel, dirCount t ≤ fuel →
      removeEmptyRoundsGo fuel t root = run_remove_empty t root) := by
  refine ⟨?_, ?_, ?_, ?_, ?_⟩
  · intro p hp
    unfold emptyCandidates at hp
    rcases hl : lookupDir t root with _ | sub
    · rw [hl] at hp
      cases hp
    · rw [hl] at hp
      have := List.of_mem_filter hp
      exact of_decide_eq_true this
  · exact fun acc p d hp hd hig hnd => emptyStep_deletes acc p d hp hd hig hnd
  · exact fun acc p h => emptyStep_skips acc p h
  · intro h
    unfold run_remove_empty
    rcases hdc : dirCount t with _ | k
    · exact absurd hdc (by have := dirCount_pos t; omega)
    · show (if (removeEmptyRound t root).2 = 0 then (removeEmptyRound t root).1
        else removeEmptyRoundsGo k (removeEmptyRound t root).1 root) = _
      rw [if_pos h]
  · intro fuel hf
    exact removeEmptyRoundsGo_fuel fuel t (dirCount t) root hf (Nat.le_refl _)

/-- Witness for C7: a concrete directory holding only a `.DS_Store` is
deleted by its visit, the hypotheses discharged concretely. -/
theorem C7_witness :
    (emptyStep (FSTree.node [("R", FSTree.node [] [(".DS_Store", [0])])] [], 0)
      ["R"]).2 = 0 + 1 ∧
    isdir (emptyStep (FSTree.node [("R", FSTree.node [] [(".DS_Store", [0])])] [], 0)
      ["R"]).1 ["R"] = false :=
  (C7_reclaim_rounds_characterized (FSTree.node [] []) []).2.1
    (FSTree.node [("R", FSTree.node [] [(".DS_Store", [0])])] [], 0) ["R"]
    (FSTree.node [] [(".DS_Store", [0])]) (by decide) rfl rfl rfl

/-- The C7 counterexample tree: the chosen folder `R` holds a protected
staging directory `_Quelle` containing an OS metadata file and an empty
subdirectory. -/
def tC7 : FSTree :=
  .node [("R", .node [("_Quelle",
    .node [("inner", .node [] [])] [(".DS_Store", [7])])] [])] []

/-- C7 counterexample: the standalone reclamation has no staging
protection.  `R/_Quelle` exists and is not even only-ignorable when the
round begins (it holds the real subdirectory `inner`), yet the first round
deletes two directories — `inner` bottom-up first, then the thereby-emptied
`_Quelle` itself — so the protected staging directory is gone, refuting
both the protection clause and the round-start reading of "deletes exactly
those directories whose entire content is ignorable". -/
theorem C7_counterexample :
    isdir tC7 ["R", "_Quelle"] = true ∧
    is_dir_only_ignorable tC7 ["R", "_Quelle"] = false ∧
    (removeEmptyRound tC7 ["R"]).2 = 2 ∧
    isdir (run_remove_empty tC7 ["R"]) ["R", "_Quelle"] = false := by
  refine ⟨by decide, by decide, by decide, by decide⟩

/-! ### C9: the duplicate sweep `_run_dedup` -/

/-- `_DEDUP_RE.match` plus the `base_name = m.group(1) + m.group(3)`
composition (source lines 813 and 850–854).  The regex
`^(.+)_(\d+)(\.[^.]+)$` matches iff the name ends in a dot followed by a
nonempty dot-free extension, the stem before that dot ends in an underscore
followed by a nonempty digit run, and something nonempty precedes the
underscore; the greedy `(.+)` puts the split at the LAST underscore whose
suffix is all digits — equivalently at the maximal trailing digit run of
the stem.  Returns `group(1) + group(3)`, the base name. -/
def dedupMatch (fname : String) : Option String :=
  let r := fname.data.reverse
  let eR := r.takeWhile fun c => !(decide (c = '.'))
  if eR.isEmpty then none
  else
    match r.dropWhile fun c => !(decide (c = '.')) with
    | [] => none
    | _ :: stemR =>
      let dsR := stemR.takeWhile Char.isDigit
      if dsR.isEmpty then none
      else
        match stemR.dropWhile Char.isDigit with
        | [] => none
        | u :: bR =>
          if u = '_' then
            if bR.isEmpty then none
            else some (String.mk (bR.reverse ++ '.' :: eR.reverse))
          else none

theorem dedupMatch_shorter (fname bn : String) (h : dedupMatch fname = some bn) :
    bn.data.length < fname.data.length := by
  unfold dedupMatch at h
  dsimp only at h
  split at h
  · cases h
  · rcases hdrop : fname.data.reverse.dropWhile (fun c => !(decide (c = '.'))) with
      _ | ⟨d, stemR⟩
    · rw [hdrop] at h; cases h
    · rw [hdrop] at h
      dsimp only at h
      split at h
      · cases h
      · rename_i hds
        rcases hdrop2 : stemR.dropWhile Char.isDigit with _ | ⟨u, bR⟩
        · rw [hdrop2] at h; cases h
        · rw [hdrop2] at h
          dsimp only at h
          split at h
          · split at h
            · cases h
            · cases h
              have h1 : fname.data.reverse.takeWhile (fun c => !(decide (c = '.'))) ++
                  (d :: stemR) = fname.data.reverse := by
                rw [← hdrop]
                exact List.takeWhile_append_dropWhile _ _
              have h2 : stemR.takeWhile Char.isDigit ++ (u :: bR) = stemR := by
                rw [← hdrop2]
                exact List.takeWhile_append_dropWhile _ _
              have hL1 := congrArg List.length h1
              have hL2 := congrArg List.length h2
              simp only [List.length_append, List.length_cons, List.length_reverse]
                at hL1 hL2
              have hdsne : (stemR.takeWhile Char.isDigit).length ≠ 0 := by
                intro hz
                exact hds (by rwa [List.isEmpty_iff, ← List.length_eq_zero])
              show (bR.reverse ++ '.' :: (fname.data.reverse.takeWhile
                (fun c => !(decide (c = '.')))).reverse).length < fname.data.length
              simp only [List.length_append, List.length_cons, List.length_reverse]
              omega
          · cases h

theorem dedupMatch_ne (fname bn : String) (h : dedupMatch fname = some bn) :
    fname ≠ bn := by
  intro he
  have hlt := dedupMatch_shorter fname bn h
  rw [he] at hlt
  exact lt_irrefl _ hlt

/-- The candidate collection of `_run_dedup` (source lines 847–855): one
`os.walk` pass over the ORIGINAL tree, before any deletion, collecting
`(dup_path, base_path)` for every file name the pattern matches. -/
def dedupCandidates (t : FSTree) (target : FPath) : List (FPath × FPath) :=
  match lookupDir t target with
  | none => []
  | some sub =>
    (walkTD sub target).flatMap fun fr =>
      fr.2.filterMap fun fname =>
        (dedupMatch fname).map fun bn => (fr.1 ++ [fname], fr.1 ++ [bn])

/-- One candidate visit of `_run_dedup` (source lines 870–883): delete the
numbered file iff, in the CURRENT tree, its base path exists and the two
are byte-identical. -/
def dedupStep (u : FSTree) (c : FPath × FPath) : FSTree :=
  if pathExists u c.2 && filesIdenticalT u c.1 c.2 then removeFile u c.1 else u

/-- `_run_dedup` (source lines 841–895): collect once, then process the
candidates in order.  Logging, progress and the thread wrapper are outside
the model. -/
def run_dedup (t : FSTree) (target : FPath) : FSTree :=
  (dedupCandidates t target).foldl dedupStep t

theorem baseName_append (p : FPath) (n : String) : baseName (p ++ [n]) = n := by
  unfold baseName
  exact List.getLastD_concat _ _ _

theorem dedupStep_preserves (u : FSTree) (c : FPath × FPath) (q : FPath)
    (hq : q ≠ c.1) : lookupFile (dedupStep u c) q = lookupFile u q := by
  unfold dedupStep
  split
  · rw [removeFile_lookupFile c.1 u q, if_neg hq]
  · rfl

theorem dedupCandidates_match (t : FSTree) (target : FPath) :
    ∀ c ∈ dedupCandidates t target, (dedupMatch (baseName c.1)).isSome = true := by
  intro c hc
  unfold dedupCandidates at hc
  rcases hl : lookupDir t target with _ | sub
  · rw [hl] at hc
    cases hc
  · rw [hl] at hc
    rw [List.mem_flatMap] at hc
    obtain ⟨fr, _, hmem⟩ := hc
    rw [List.mem_filterMap] at hmem
    obtain ⟨fname, _, hsome⟩ := hmem
    rcases hm : dedupMatch fname with _ | bn
    · rw [hm] at hsome
      cases hsome
    · rw [hm] at hsome
      cases hsome
      show (dedupMatch (baseName (fr.1 ++ [fname]))).isSome = true
      rw [baseName_append, hm]
      rfl

theorem dedupFold_preserves (q : FPath) :
    ∀ (l : List (FPath × FPath)) (u : FSTree),
      (∀ c ∈ l, (dedupMatch (baseName c.1)).isSome = true) →
      dedupMatch (baseName q) = none →
      lookupFile (l.foldl dedupStep u) q = lookupFile u q := by
  intro q'
  induction q' with
  | nil => intro u _ _; rfl
  | cons c rest ih =>
    intro u hl hq
    rw [List.foldl_cons,
      ih (dedupStep u c) (fun c' h' => hl c' (List.mem_cons_of_mem c h')) hq]
    refine dedupStep_preserves u c q ?_
    intro he
    have h1 := hl c (List.mem_cons_self c rest)
    rw [← he, hq] at h1
    cases h1

/-- C9 (amended).  The duplicate sweep, AT PROCESSING TIME: (1) a candidate
whose base path exists in the current tree and is byte-identical to the
numbered file has exactly the numbered file deleted by its visit, the base
surviving it; (2) a candidate whose base is missing or differs at its visit
is kept, the tree unchanged; (3) a matching name is never its own base, so
a visit never deletes the base of its own pair; (4) every collected
candidate's numbered file has a pattern-matching name; and (5) a file whose
name does not match the pattern is never deleted by the whole sweep.  (The
spec's sweep-start reading of the iff is refuted by the counterexample: a
base byte-identical at sweep start can itself be deleted by an earlier
visit of the same sweep, after which the later numbered file is kept.) -/
theorem C9_dedup_deletes_at_processing_time (t : FSTree) (target : FPath) :
    (∀ (u : FSTree) (c : FPath × FPath),
      pathExists u c.2 = true → filesIdenticalT u c.1 c.2 = true →
      dedupStep u c = removeFile u c.1 ∧
      lookupFile (dedupStep u c) c.1 = none ∧
      (c.1 ≠ c.2 → lookupFile (dedupStep u c) c.2 = lookupFile u c.2)) ∧
    (∀ (u : FSTree) (c : FPath × FPath),
      (pathExists u c.2 && filesIdenticalT u c.1 c.2) = false →
      dedupStep u c = u) ∧
    (∀ fname bn, dedupMatch fname = some bn → fname ≠ bn) ∧
    (∀ c ∈ dedupCandidates t target, (dedupMatch (baseName c.1)).isSome = true) ∧
    (∀ q, dedupMatch (baseName q) = none →
      lookupFile (run_dedup t target) q = lookupFile t q) := by
  refine ⟨?_, ?_, fun fname bn h => dedupMatch_ne fname bn h,
    dedupCandidates_match t target, ?_⟩
  · intro u c h1 h2
    have hstep : dedupStep u c = removeFile u c.1 := by
      unfold dedupStep
      rw [h1, h2]
      rfl
    refine ⟨hstep, ?_, ?_⟩
    · rw [hstep, removeFile_lookupFile c.1 u c.1, if_pos rfl]
    · intro hne
      rw [hstep, removeFile_lookupFile c.1 u c.2, if_neg (fun he => hne he.symm)]
  · intro u c hcond
    unfold dedupStep
    rw [hcond]
    rfl
  · intro q hq
    exact dedupFold_preserves q (dedupCandidates t target) t
      (dedupCandidates_match t target) hq

/-- Witness for C9: a concrete byte-identical pair has the numbered file,
and only the numbered file, deleted by its visit. -/
theorem C9_witness :
    dedupStep (FSTree.node [] [("a.txt", [1]), ("a_1.txt", [1])])
      (["a_1.txt"], ["a.txt"]) =
      removeFile (FSTree.node [] [("a.txt", [1]), ("a_1.txt", [1])]) ["a_1.txt"] ∧
    lookupFile (dedupStep (FSTree.node [] [("a.txt", [1]), ("a_1.txt", [1])])
      (["a_1.txt"], ["a.txt"])) ["a_1.txt"] = none ∧
    lookupFile (dedupStep (FSTree.node [] [("a.txt", [1]), ("a_1.txt", [1])])
      (["a_1.txt"], ["a.txt"])) ["a.txt"] =
      lookupFile (FSTree.node [] [("a.txt", [1]), ("a_1.txt", [1])]) ["a.txt"] := by
  have h := (C9_dedup_deletes_at_processing_time (FSTree.node [] []) []).1
    (FSTree.node [] [("a.txt", [1]), ("a_1.txt", [1])]) (["a_1.txt"], ["a.txt"])
    (by decide) (by decide)
  exact ⟨h.1, h.2.1, h.2.2 (by decide)⟩

/-- The C9 counterexample tree: three byte-identical files forming a
numbering chain. -/
def tC9 : FSTree :=
  .node [("R", .node [] [("a.txt", [1]), ("a_1.txt", [1]), ("a_1_2.txt", [1])])] []

/-- C9 counterexample: `a_1_2.txt` matches the pattern with base
`a_1.txt`; that base exists in the swept tree and is byte-identical, yet
the sweep KEEPS `a_1_2.txt` — the earlier visit of the same sweep deleted
`a_1.txt` (itself a numbered duplicate of `a.txt`), so the base was gone by
processing time.  The same run also shows a base file (of the pair
`a_1_2.txt`/`a_1.txt`) being deleted, against "the base file is never the
one deleted". -/
theorem C9_counterexample :
    dedupMatch "a_1_2.txt" = some "a_1.txt" ∧
    pathExists tC9 ["R", "a_1.txt"] = true ∧
    filesIdenticalT tC9 ["R", "a_1_2.txt"] ["R", "a_1.txt"] = true ∧
    lookupFile (run_dedup tC9 ["R"]) ["R", "a_1_2.txt"] = some [1] ∧
    lookupFile (run_dedup tC9 ["R"]) ["R", "a_1.txt"] = none := by
  refine ⟨by decide, by decide, by decide, by decide, by decide⟩

end FileMerge
